import Mathlib

/-!
Verification of the maze-game core (`graphic.py`): grid/cell data model,
randomized DFS maze generation (`Maze.generate`), BFS solving
(`Maze.solve_with_bfs`), wall state (`Maze._break_border`), the
connectivity relation (`Maze._add_edge`), and player movement
(`Player.update`).

The Python heap of `Node` objects indexed by `(row, col)` is embedded as a
total function from positions to node records; every mutation becomes a
functional update at one position.  Randomness (`random.choice`) is an
injected stream of natural numbers.  `while` loops are embedded as
fuel-bounded recursion; termination with sufficient fuel is proved
separately.
-/

/-- RGB color triples, exactly the constants of the source file. -/
abbrev Color := Nat × Nat × Nat

def BLACK : Color := (0, 0, 0)

def WHITE : Color := (255, 255, 255)

def RED : Color := (255, 0, 0)

def GREEN : Color := (0, 255, 0)

def DARKGRAY : Color := (169, 169, 169)

def YELLOW : Color := (222, 178, 0)

def PINK : Color := (225, 96, 253)

def ORANGE : Color := (255, 99, 71)

def LIGHTBLUE : Color := (60, 170, 255)

def BEIGE : Color := (178, 168, 152)

/-- `ROWS = MAZE_PIXELS // CELL_SIZE = 24` in the source. -/
def ROWS : Nat := 24

/-- `COLS = MAZE_PIXELS // CELL_SIZE = 24` in the source. -/
def COLS : Nat := 24

/-- Identity of a maze cell: its `(row, col)` index into the grid. -/
structure Pos where
  row : Nat
  col : Nat
deriving DecidableEq, Repr

/-- One cell of the maze (`class Node`): DFS flag `visited`, BFS flags
`explored`/`parent`, the cell body color, the four wall colors, the
geometric neighbor list and the connectivity list.  `parent` is stored as
a position index (the Python reference points into the same grid).
Pure pixel data (`x`, `y`, `width`, `height`) is omitted. -/
structure Node where
  row : Nat
  col : Nat
  color : Color
  visited : Bool
  explored : Bool
  parent : Option Pos
  top_border : Color
  bottom_border : Color
  left_border : Color
  right_border : Color
  neighbors : List Pos
  connected_neighbors : List Pos
deriving DecidableEq, Repr

/-- A freshly constructed `Node(row, col)`: gray body, all four walls
black, all flags clear, empty neighbor lists. -/
def Node.init (r c : Nat) : Node :=
  { row := r, col := c, color := DARKGRAY, visited := false,
    explored := false, parent := none,
    top_border := BLACK, bottom_border := BLACK,
    left_border := BLACK, right_border := BLACK,
    neighbors := [], connected_neighbors := [] }

/-- The heap of cells: one `Node` per position. -/
def Grid := Pos → Node

/-- Write one cell of the heap. -/
def Grid.set (g : Grid) (p : Pos) (n : Node) : Grid :=
  fun q => if q = p then n else g q

/-- Mutate one cell of the heap in place. -/
def Grid.modify (g : Grid) (p : Pos) (f : Node → Node) : Grid :=
  Grid.set g p (f (g p))

theorem Grid.set_same (g : Grid) (p : Pos) (n : Node) : Grid.set g p n p = n := by
  simp [Grid.set]

theorem Grid.set_other (g : Grid) (p q : Pos) (n : Node) (h : q ≠ p) :
    Grid.set g p n q = g q := by
  simp [Grid.set, h]

theorem Grid.modify_same (g : Grid) (p : Pos) (f : Node → Node) :
    Grid.modify g p f p = f (g p) := by
  simp [Grid.modify, Grid.set_same]

theorem Grid.modify_other (g : Grid) (p q : Pos) (f : Node → Node) (h : q ≠ p) :
    Grid.modify g p f q = g q := by
  simp [Grid.modify, Grid.set_other _ _ _ _ h]

/-- A position lies on the `rows × cols` grid. -/
def InBounds (rows cols : Nat) (p : Pos) : Prop :=
  p.row < rows ∧ p.col < cols

instance (rows cols : Nat) (p : Pos) : Decidable (InBounds rows cols p) := by
  unfold InBounds; infer_instance

/-- `Maze._define_neighbors`: the up-to-4 in-bounds edge-sharing cells of
`p`, in source order top, bottom, left, right. -/
def geomNeighbors (rows cols : Nat) (p : Pos) : List Pos :=
  (if 0 < p.row then [Pos.mk (p.row - 1) p.col] else []) ++
  (if p.row < rows - 1 then [Pos.mk (p.row + 1) p.col] else []) ++
  (if 0 < p.col then [Pos.mk p.row (p.col - 1)] else []) ++
  (if p.col < cols - 1 then [Pos.mk p.row (p.col + 1)] else [])

/-- The grid built by `Maze.__init__`: fresh nodes with their geometric
neighbor lists filled in once. -/
def initGrid (rows cols : Nat) : Grid :=
  fun p => { Node.init p.row p.col with neighbors := geomNeighbors rows cols p }

/-- `Maze._add_edge(a, b)`: append `b` to `a.connected_neighbors` and `a`
to `b.connected_neighbors` (no adjacency check in the source). -/
def add_edge (g : Grid) (a b : Pos) : Grid :=
  let g1 := g.modify a (fun n => { n with connected_neighbors := n.connected_neighbors ++ [b] })
  g1.modify b (fun n => { n with connected_neighbors := n.connected_neighbors ++ [a] })

/-- `Maze._remove_visited_neighbors(node)`: destructively filter the
node's geometric neighbor list down to the currently unvisited ones. -/
def remove_visited_neighbors (g : Grid) (p : Pos) : Grid :=
  g.modify p (fun n => { n with neighbors := n.neighbors.filter (fun q => !(g q).visited) })

/-- `Maze._break_border(a, b, color)`: recolor the matching pair of walls
between two neighboring cells; silently does nothing when the two cells
are not adjacent.  (Python tests `b.col == a.col - 1` over ints; here it
is written `a.col = b.col + 1`, the same relation without Nat
underflow.) -/
def break_border (g : Grid) (a b : Pos) (c : Color) : Grid :=
  if a.row = b.row then
    if b.col = a.col + 1 then
      (g.modify a (fun n => { n with right_border := c })).modify b
        (fun n => { n with left_border := c })
    else if a.col = b.col + 1 then
      (g.modify a (fun n => { n with left_border := c })).modify b
        (fun n => { n with right_border := c })
    else g
  else if a.col = b.col then
    if b.row = a.row + 1 then
      (g.modify a (fun n => { n with bottom_border := c })).modify b
        (fun n => { n with top_border := c })
    else if a.row = b.row + 1 then
      (g.modify a (fun n => { n with top_border := c })).modify b
        (fun n => { n with bottom_border := c })
    else g
  else g

/-- Two distinct cells sharing exactly one coordinate, offset by 1 in the
other: the geometric adjacency relation of the grid (without bounds). -/
def Adj (a b : Pos) : Prop :=
  (a.row = b.row ∧ (b.col = a.col + 1 ∨ a.col = b.col + 1)) ∨
  (a.col = b.col ∧ (b.row = a.row + 1 ∨ a.row = b.row + 1))

instance (a b : Pos) : Decidable (Adj a b) := by
  unfold Adj; infer_instance

/-- The connectivity relation built by `_add_edge`. -/
def Edge (g : Grid) (p q : Pos) : Prop :=
  q ∈ (g p).connected_neighbors

instance (g : Grid) (p q : Pos) : Decidable (Edge g p q) := by
  unfold Edge; infer_instance

/-- Walks of a given length in the connectivity graph, growing at the
far end. -/
inductive WalkLen (g : Grid) (a : Pos) : Pos → Nat → Prop
  | refl : WalkLen g a a 0
  | snoc {b c : Pos} {n : Nat} : WalkLen g a b n → Edge g b c → WalkLen g a c (n + 1)

/-- `b` is reachable from `a` through open connectivity edges. -/
def Reach (g : Grid) (a b : Pos) : Prop :=
  ∃ n, WalkLen g a b n

/-- `random.choice(l)`: pick one element of a nonempty list, the index
drawn from the injected random stream. -/
def choose (rand : Nat → Nat) (t : Nat) (l : List Pos) : Pos :=
  l.getD (rand t % l.length) (Pos.mk 0 0)

/-- The loop state of `Maze.generate`: the heap, the `current` cell, the
explicit DFS stack (head = top), and `visited_count`.  `log` is the
generator's per-step observation: the cells in the order they were marked
visited.  `t` indexes the random stream. -/
structure GenState where
  grid : Grid
  current : Pos
  stack : List Pos
  visitedCount : Nat
  log : List Pos
  t : Nat

/-- The dead-end recoloring of `generate`: turn the cell and its green
walls yellow. -/
def backtrackRecolor (n : Node) : Node :=
  { n with
    color := YELLOW,
    top_border := if n.top_border = GREEN then YELLOW else n.top_border,
    bottom_border := if n.bottom_border = GREEN then YELLOW else n.bottom_border,
    left_border := if n.left_border = GREEN then YELLOW else n.left_border,
    right_border := if n.right_border = GREEN then YELLOW else n.right_border }

/-- `current.visited = True; current.color = GREEN` of `generate`. -/
def markVisited (n : Node) : Node :=
  { n with visited := true, color := GREEN }

/-- The body of one `while` iteration of `Maze.generate` after the
destructive neighbor filtering produced the heap `g1`. -/
def genStepGo (rand : Nat → Nat) (s : GenState) (g1 : Grid) : GenState :=
  if (g1 s.current).neighbors = [] then
    { grid := g1.modify s.current backtrackRecolor,
      current := s.stack.tail.headD s.current, stack := s.stack.tail,
      visitedCount := s.visitedCount, log := s.log, t := s.t }
  else
    let nb := choose rand s.t ((g1 s.current).neighbors)
    { grid := (add_edge (break_border g1 s.current nb GREEN) s.current nb).modify nb markVisited,
      current := nb, stack := nb :: s.stack,
      visitedCount := s.visitedCount + 1, log := s.log ++ [nb], t := s.t + 1 }

/-- One iteration of the `while` body of `Maze.generate`: filter the
current cell's neighbors to the unvisited ones; either carve to a random
unvisited neighbor, or recolor and backtrack. -/
def generateStep (rand : Nat → Nat) (s : GenState) : GenState :=
  genStepGo rand s (remove_visited_neighbors s.grid s.current)

/-- The `while visited_count < total_nodes and stack` loop, fuel-bounded. -/
def generateLoop (rand : Nat → Nat) (total : Nat) : Nat → GenState → GenState
  | 0, s => s
  | fuel + 1, s =>
    if s.visitedCount < total ∧ s.stack ≠ [] then
      generateLoop rand total fuel (generateStep rand s)
    else s

/-- The state of `Maze.generate` just before its loop: one uniformly
random cell marked visited and pushed onto the stack. -/
def genInit (rand : Nat → Nat) (rows cols : Nat) : GenState :=
  let p0 := Pos.mk (rand 0 % rows) (rand 1 % cols)
  { grid := (initGrid rows cols).modify p0 markVisited,
    current := p0, stack := [p0], visitedCount := 1, log := [p0], t := 2 }

/-- `Maze.generate` run to completion (the fuel `2 * rows * cols` is
proved sufficient below). -/
def generate (rand : Nat → Nat) (rows cols : Nat) : GenState :=
  generateLoop rand (rows * cols) (2 * (rows * cols)) (genInit rand rows cols)

/-- The loop state of `Maze.solve_with_bfs`: the heap, the FIFO queue
(head = front), and the `found` flag. -/
structure SolveState where
  grid : Grid
  queue : List Pos
  found : Bool

/-- `neighbor.explored = True; neighbor.parent = node` of the solver. -/
def markExplored (u : Pos) (n : Node) : Node :=
  { n with explored := true, parent := some u }

/-- The inner `for neighbor in node.connected_neighbors` loop of
`solve_with_bfs`: mark each unexplored neighbor explored, set its parent,
enqueue it, and stop with `found` as soon as the goal was discovered. -/
def bfs_expand (goal u : Pos) (g : Grid) (q : List Pos) :
    List Pos → Grid × List Pos × Bool
  | [] => (g, q, false)
  | nb :: rest =>
    if (g nb).explored then bfs_expand goal u g q rest
    else
      let g1 := g.modify nb (markExplored u)
      let q1 := q ++ [nb]
      if nb.row = goal.row ∧ nb.col = goal.col then (g1, q1, true)
      else bfs_expand goal u g1 q1 rest

/-- The dequeue recoloring of `solve_with_bfs`: turn the node and its
yellow walls pink. -/
def solveRecolor (n : Node) : Node :=
  { n with
    color := PINK,
    top_border := if n.top_border = YELLOW then PINK else n.top_border,
    bottom_border := if n.bottom_border = YELLOW then PINK else n.bottom_border,
    left_border := if n.left_border = YELLOW then PINK else n.left_border,
    right_border := if n.right_border = YELLOW then PINK else n.right_border }

/-- One iteration of the `while queue and not found` body: dequeue the
front node, recolor it pink (yellow walls included), expand its
connectivity neighbors. -/
def solveStep (goal : Pos) (s : SolveState) : SolveState :=
  match s.queue with
  | [] => s
  | u :: rest =>
    let g1 := s.grid.modify u solveRecolor
    let r := bfs_expand goal u g1 rest ((g1 u).connected_neighbors)
    { grid := r.1, queue := r.2.1, found := r.2.2 }

/-- The `while queue and not found` loop, fuel-bounded. -/
def solveLoop (goal : Pos) : Nat → SolveState → SolveState
  | 0, s => s
  | fuel + 1, s =>
    if s.queue ≠ [] ∧ s.found = false then solveLoop goal fuel (solveStep goal s)
    else s

/-- The backtrace recoloring of `solve_with_bfs`: turn the cell and its
pink walls orange. -/
def orangeRecolor (n : Node) : Node :=
  { n with
    color := ORANGE,
    top_border := if n.top_border = PINK then ORANGE else n.top_border,
    bottom_border := if n.bottom_border = PINK then ORANGE else n.bottom_border,
    left_border := if n.left_border = PINK then ORANGE else n.left_border,
    right_border := if n.right_border = PINK then ORANGE else n.right_border }

/-- The backtrace loop of `solve_with_bfs`: starting at the goal cell,
follow `parent` links while the grandparent exists, coloring each visited
link orange.  Returns the recolored heap and the highlighted cells in
coloring order. -/
def backtrackLoop : Nat → Grid → Pos → List Pos → Grid × List Pos
  | 0, g, _, acc => (g, acc)
  | fuel + 1, g, cur, acc =>
    match (g cur).parent with
    | none => (g, acc)
    | some p =>
      match (g p).parent with
      | none => (g, acc)
      | some _ => backtrackLoop fuel (g.modify p orangeRecolor) p (acc ++ [p])

/-- `Maze.solve_with_bfs`: mark the start (the player's cell) explored,
run the BFS loop, then run the goal-to-start backtrace.  Returns the
final solver state and the list of cells highlighted by the backtrace. -/
def solve_with_bfs (g : Grid) (start goal : Pos) (fuel : Nat) :
    SolveState × List Pos :=
  let g0 := g.modify start (fun n => { n with explored := true })
  let s := solveLoop goal fuel { grid := g0, queue := [start], found := false }
  let r := backtrackLoop fuel s.grid goal []
  ({ s with grid := r.1 }, r.2)

/-- The four arrow keys handled by `Player.update`. -/
inductive Key
  | left
  | right
  | up
  | down
deriving DecidableEq, Repr

/-- One keypress of `Player.update`: move when the target stays on the
grid and the corresponding wall of the current cell is not black; stay
put otherwise.  The maze grid is read, never written. -/
def player_update (g : Grid) (rows cols : Nat) (p : Pos) (k : Key) : Pos :=
  let node := g p
  match k with
  | Key.left =>
    if 0 < p.col ∧ node.left_border ≠ BLACK then Pos.mk p.row (p.col - 1) else p
  | Key.right =>
    if p.col < cols - 1 ∧ node.right_border ≠ BLACK then Pos.mk p.row (p.col + 1) else p
  | Key.up =>
    if 0 < p.row ∧ node.top_border ≠ BLACK then Pos.mk (p.row - 1) p.col else p
  | Key.down =>
    if p.row < rows - 1 ∧ node.bottom_border ≠ BLACK then Pos.mk (p.row + 1) p.col else p

theorem mem_geomNeighbors {rows cols : Nat} {p q : Pos} :
    q ∈ geomNeighbors rows cols p ↔
      ((0 < p.row ∧ q = Pos.mk (p.row - 1) p.col) ∨
       (p.row < rows - 1 ∧ q = Pos.mk (p.row + 1) p.col) ∨
       (0 < p.col ∧ q = Pos.mk p.row (p.col - 1)) ∨
       (p.col < cols - 1 ∧ q = Pos.mk p.row (p.col + 1))) := by
  unfold geomNeighbors
  by_cases h1 : 0 < p.row <;> by_cases h2 : p.row < rows - 1 <;>
    by_cases h3 : 0 < p.col <;> by_cases h4 : p.col < cols - 1 <;>
    simp [h1, h2, h3, h4]

theorem geomNeighbors_inBounds {rows cols : Nat} {p q : Pos}
    (hp : InBounds rows cols p) (hq : q ∈ geomNeighbors rows cols p) :
    InBounds rows cols q := by
  obtain ⟨hr, hc⟩ := hp
  rcases mem_geomNeighbors.mp hq with ⟨h, rfl⟩ | ⟨h, rfl⟩ | ⟨h, rfl⟩ | ⟨h, rfl⟩
  · exact ⟨show p.row - 1 < rows by omega, show p.col < cols by omega⟩
  · exact ⟨show p.row + 1 < rows by omega, show p.col < cols by omega⟩
  · exact ⟨show p.row < rows by omega, show p.col - 1 < cols by omega⟩
  · exact ⟨show p.row < rows by omega, show p.col + 1 < cols by omega⟩

theorem geomNeighbors_ne {rows cols : Nat} {p q : Pos}
    (hq : q ∈ geomNeighbors rows cols p) : q ≠ p := by
  rcases mem_geomNeighbors.mp hq with ⟨h, rfl⟩ | ⟨h, rfl⟩ | ⟨h, rfl⟩ | ⟨h, rfl⟩ <;>
    · intro hqp
      rw [Pos.mk.injEq] at hqp
      omega

theorem geomNeighbors_adj {rows cols : Nat} {p q : Pos}
    (hq : q ∈ geomNeighbors rows cols p) : Adj p q := by
  rcases mem_geomNeighbors.mp hq with ⟨h, rfl⟩ | ⟨h, rfl⟩ | ⟨h, rfl⟩ | ⟨h, rfl⟩
  · exact Or.inr ⟨rfl, Or.inr (by simp; omega)⟩
  · exact Or.inr ⟨rfl, Or.inl rfl⟩
  · exact Or.inl ⟨rfl, Or.inr (by simp; omega)⟩
  · exact Or.inl ⟨rfl, Or.inl rfl⟩

theorem WalkLen.append {g : Grid} {a b c : Pos} {m n : Nat}
    (w1 : WalkLen g a b m) (w2 : WalkLen g b c n) : WalkLen g a c (m + n) := by
  induction w2 with
  | refl => exact w1
  | snoc w e ih => exact WalkLen.snoc ih e

theorem WalkLen.cons {g : Grid} {a b c : Pos} {n : Nat}
    (e : Edge g a b) (w : WalkLen g b c n) : WalkLen g a c (n + 1) := by
  have h1 : WalkLen g a b 1 := WalkLen.snoc WalkLen.refl e
  have := WalkLen.append h1 w
  rwa [Nat.add_comm] at this

theorem walkLen_symm {g : Grid} (hsym : ∀ p q, Edge g p q → Edge g q p)
    {a b : Pos} {n : Nat} (w : WalkLen g a b n) : WalkLen g b a n := by
  induction w with
  | refl => exact WalkLen.refl
  | snoc w e ih => exact WalkLen.cons (hsym _ _ e) ih

theorem walkLen_mono {g g' : Grid} (h : ∀ p q, Edge g p q → Edge g' p q)
    {a b : Pos} {n : Nat} (w : WalkLen g a b n) : WalkLen g' a b n := by
  induction w with
  | refl => exact WalkLen.refl
  | snoc w e ih => exact WalkLen.snoc ih (h _ _ e)

theorem walkLen_zero {g : Grid} {a b : Pos} (w : WalkLen g a b 0) : b = a := by
  cases w; rfl

theorem Reach.trans {g : Grid} {a b c : Pos} (h1 : Reach g a b) (h2 : Reach g b c) :
    Reach g a c := by
  obtain ⟨m, w1⟩ := h1
  obtain ⟨n, w2⟩ := h2
  exact ⟨m + n, w1.append w2⟩

theorem reach_symm {g : Grid} (hsym : ∀ p q, Edge g p q → Edge g q p)
    {a b : Pos} (h : Reach g a b) : Reach g b a := by
  obtain ⟨n, w⟩ := h
  exact ⟨n, walkLen_symm hsym w⟩

theorem Reach.mono {g g' : Grid} (h : ∀ p q, Edge g p q → Edge g' p q)
    {a b : Pos} (hr : Reach g a b) : Reach g' a b := by
  obtain ⟨n, w⟩ := hr
  exact ⟨n, walkLen_mono h w⟩

/-- `n` is the true graph distance from `a` to `b`: the least walk length. -/
def IsDist (g : Grid) (a b : Pos) (n : Nat) : Prop :=
  WalkLen g a b n ∧ ∀ m, WalkLen g a b m → n ≤ m

theorem isDist_unique {g : Grid} {a b : Pos} {m n : Nat}
    (h1 : IsDist g a b m) (h2 : IsDist g a b n) : m = n :=
  Nat.le_antisymm (h1.2 n h2.1) (h2.2 m h1.1)

theorem reach_isDist {g : Grid} {a b : Pos} (h : Reach g a b) :
    ∃ n, IsDist g a b n := by
  have hne : {n | WalkLen g a b n}.Nonempty := h
  exact ⟨sInf {n | WalkLen g a b n}, Nat.sInf_mem hne, fun m hm => Nat.sInf_le hm⟩

theorem isDist_self {g : Grid} (a : Pos) : IsDist g a a 0 :=
  ⟨WalkLen.refl, fun m _ => Nat.zero_le m⟩

/-- All positions of the `rows × cols` grid, enumerated row-major. -/
def positions (rows cols : Nat) : List Pos :=
  (List.range (rows * cols)).map (fun i => Pos.mk (i / cols) (i % cols))

theorem positions_nodup (rows cols : Nat) : (positions rows cols).Nodup := by
  refine List.Nodup.map ?_ (List.nodup_range _)
  intro i j hij
  rw [Pos.mk.injEq] at hij
  obtain ⟨h1, h2⟩ := hij
  have hi := Nat.div_add_mod i cols
  have hj := Nat.div_add_mod j cols
  rw [h1, h2, hj] at hi
  exact hi.symm

theorem positions_length (rows cols : Nat) : (positions rows cols).length = rows * cols := by
  simp [positions]

theorem mem_positions {rows cols : Nat} {p : Pos} :
    p ∈ positions rows cols ↔ InBounds rows cols p := by
  rcases Nat.eq_zero_or_pos cols with hc | hc
  · subst hc
    simp [positions, InBounds]
  constructor
  · intro h
    simp only [positions, List.mem_map, List.mem_range] at h
    obtain ⟨i, hi, rfl⟩ := h
    refine ⟨?_, Nat.mod_lt _ hc⟩
    by_contra hcon
    push_neg at hcon
    have h1 : rows * cols ≤ i / cols * cols := Nat.mul_le_mul_right _ hcon
    have h2 : i / cols * cols ≤ i := Nat.div_mul_le_self i cols
    omega
  · intro ⟨hr, hcc⟩
    simp only [positions, List.mem_map, List.mem_range]
    refine ⟨p.row * cols + p.col, ?_, ?_⟩
    · calc p.row * cols + p.col < p.row * cols + cols := by omega
        _ = (p.row + 1) * cols := by ring
        _ ≤ rows * cols := Nat.mul_le_mul_right _ (by omega)
    · rw [Pos.mk.injEq]
      constructor
      · rw [Nat.mul_comm, Nat.mul_add_div hc, Nat.div_eq_of_lt hcc, Nat.add_zero]
      · rw [Nat.mul_comm, Nat.mul_add_mod, Nat.mod_eq_of_lt hcc]

theorem sum_map_set {F : Node → Nat} {l : List Pos} {p : Pos} (g : Grid) (n : Node)
    (hn : l.Nodup) (hp : p ∈ l) :
    (l.map (fun q => F (Grid.set g p n q))).sum + F (g p) =
      (l.map (fun q => F (g q))).sum + F n := by
  induction l with
  | nil => cases hp
  | cons a t ih =>
    rcases List.mem_cons.mp hp with rfl | hpt
    · have hnt : p ∉ t := (List.nodup_cons.mp hn).1
      have ht : t.map (fun q => F (Grid.set g p n q)) = t.map (fun q => F (g q)) := by
        apply List.map_congr_left
        intro q hq
        rw [Grid.set_other _ _ _ _ (by rintro rfl; exact hnt hq)]
      simp only [List.map_cons, List.sum_cons, ht, Grid.set_same]
      omega
    · have ha : a ≠ p := by rintro rfl; exact (List.nodup_cons.mp hn).1 hpt
      have := ih (List.nodup_cons.mp hn).2 hpt
      simp only [List.map_cons, List.sum_cons, Grid.set_other _ _ _ _ ha]
      omega

theorem sum_map_modify {F : Node → Nat} {l : List Pos} {p : Pos} (g : Grid) (f : Node → Node)
    (hn : l.Nodup) (hp : p ∈ l) :
    (l.map (fun q => F (Grid.modify g p f q))).sum + F (g p) =
      (l.map (fun q => F (g q))).sum + F (f (g p)) :=
  sum_map_set g (f (g p)) hn hp

/-- Twice the number of connectivity edges: the total length of all
in-bounds `connected_neighbors` lists. -/
def degSum (rows cols : Nat) (g : Grid) : Nat :=
  ((positions rows cols).map (fun p => ((g p).connected_neighbors).length)).sum

theorem degSum_congr {rows cols : Nat} {g g' : Grid}
    (h : ∀ p, ((g' p).connected_neighbors).length = ((g p).connected_neighbors).length) :
    degSum rows cols g' = degSum rows cols g := by
  unfold degSum
  congr 1
  exact List.map_congr_left (fun p _ => h p)

theorem degSum_modify_append {rows cols : Nat} {g : Grid} {a x : Pos}
    (ha : InBounds rows cols a) :
    degSum rows cols
        (g.modify a (fun n => { n with connected_neighbors := n.connected_neighbors ++ [x] }))
      = degSum rows cols g + 1 := by
  have e := sum_map_modify (F := fun n => n.connected_neighbors.length) g
    (fun n => { n with connected_neighbors := n.connected_neighbors ++ [x] })
    (positions_nodup rows cols) (mem_positions.mpr ha)
  dsimp only at e
  simp only [List.length_append, List.length_cons, List.length_nil] at e
  unfold degSum
  omega

theorem degSum_add_edge {rows cols : Nat} {g : Grid} {a b : Pos}
    (ha : InBounds rows cols a) (hb : InBounds rows cols b) :
    degSum rows cols (add_edge g a b) = degSum rows cols g + 2 := by
  have h : add_edge g a b =
      ((g.modify a (fun n => { n with connected_neighbors := n.connected_neighbors ++ [b] })).modify
        b (fun n => { n with connected_neighbors := n.connected_neighbors ++ [a] })) := rfl
  rw [h, degSum_modify_append hb, degSum_modify_append ha]

/-- Number of in-bounds cells still unexplored. -/
def unexploredCount (rows cols : Nat) (g : Grid) : Nat :=
  ((positions rows cols).map (fun p => if (g p).explored then 0 else 1)).sum

theorem unexploredCount_congr {rows cols : Nat} {g g' : Grid}
    (h : ∀ p, (g' p).explored = (g p).explored) :
    unexploredCount rows cols g' = unexploredCount rows cols g := by
  unfold unexploredCount
  congr 1
  exact List.map_congr_left (fun p _ => by rw [h p])

theorem unexploredCount_mark {rows cols : Nat} {g : Grid} {p : Pos} {f : Node → Node}
    (hp : InBounds rows cols p) (hold : (g p).explored = false)
    (hnew : (f (g p)).explored = true) :
    unexploredCount rows cols (Grid.modify g p f) + 1 = unexploredCount rows cols g := by
  have e := sum_map_modify (F := fun n => if n.explored then 0 else 1) g f
    (positions_nodup rows cols) (mem_positions.mpr hp)
  dsimp only at e
  rw [hold, hnew] at e
  simp only [Bool.false_eq_true, if_false, if_true] at e
  unfold unexploredCount
  omega

/-- Any set of cells that is closed under geometric adjacency and
contains one cell contains every in-bounds cell: the geometric grid graph
is connected. -/
theorem geom_closed_all {rows cols : Nat} (S : Pos → Prop)
    (hS : ∀ p, S p → InBounds rows cols p)
    (hcl : ∀ p, S p → ∀ q ∈ geomNeighbors rows cols p, S q) :
    ∀ d p q, p.row - q.row + (q.row - p.row) + (p.col - q.col) + (q.col - p.col) = d →
      S p → InBounds rows cols q → S q := by
  intro d
  induction d using Nat.strong_induction_on with
  | _ d ih =>
    intro p q hd hp hq
    by_cases hpq : p = q
    · rwa [hpq] at hp
    have hne : p.row ≠ q.row ∨ p.col ≠ q.col := by
      by_contra hcon
      push_neg at hcon
      exact hpq (by cases p; cases q; simp_all)
    obtain ⟨hpr, hpc⟩ := hS p hp
    obtain ⟨hqr, hqc⟩ := hq
    rcases Nat.lt_or_ge p.row q.row with h1 | h1
    · have hmem : Pos.mk (p.row + 1) p.col ∈ geomNeighbors rows cols p :=
        mem_geomNeighbors.mpr (Or.inr (Or.inl ⟨by omega, rfl⟩))
      have hp' := hcl p hp _ hmem
      refine ih (d - 1) (by omega) (Pos.mk (p.row + 1) p.col) q ?_ hp' ⟨hqr, hqc⟩
      show p.row + 1 - q.row + (q.row - (p.row + 1)) + (p.col - q.col) + (q.col - p.col) = d - 1
      omega
    rcases Nat.lt_or_ge q.row p.row with h2 | h2
    · have hmem : Pos.mk (p.row - 1) p.col ∈ geomNeighbors rows cols p :=
        mem_geomNeighbors.mpr (Or.inl ⟨by omega, rfl⟩)
      have hp' := hcl p hp _ hmem
      refine ih (d - 1) (by omega) (Pos.mk (p.row - 1) p.col) q ?_ hp' ⟨hqr, hqc⟩
      show p.row - 1 - q.row + (q.row - (p.row - 1)) + (p.col - q.col) + (q.col - p.col) = d - 1
      omega
    rcases Nat.lt_or_ge p.col q.col with h3 | h3
    · have hmem : Pos.mk p.row (p.col + 1) ∈ geomNeighbors rows cols p :=
        mem_geomNeighbors.mpr (Or.inr (Or.inr (Or.inr ⟨by omega, rfl⟩)))
      have hp' := hcl p hp _ hmem
      refine ih (d - 1) (by omega) (Pos.mk p.row (p.col + 1)) q ?_ hp' ⟨hqr, hqc⟩
      show p.row - q.row + (q.row - p.row) + (p.col + 1 - q.col) + (q.col - (p.col + 1)) = d - 1
      omega
    rcases Nat.lt_or_ge q.col p.col with h4 | h4
    · have hmem : Pos.mk p.row (p.col - 1) ∈ geomNeighbors rows cols p :=
        mem_geomNeighbors.mpr (Or.inr (Or.inr (Or.inl ⟨by omega, rfl⟩)))
      have hp' := hcl p hp _ hmem
      refine ih (d - 1) (by omega) (Pos.mk p.row (p.col - 1)) q ?_ hp' ⟨hqr, hqc⟩
      show p.row - q.row + (q.row - p.row) + (p.col - 1 - q.col) + (q.col - (p.col - 1)) = d - 1
      omega
    omega

/-- The grid coordinates of the cell one step in direction `k` from `p`,
over the integers so that stepping off the top/left is visible. -/
def targetOf (p : Pos) (k : Key) : Int × Int :=
  match k with
  | Key.left => ((p.row : Int), (p.col : Int) - 1)
  | Key.right => ((p.row : Int), (p.col : Int) + 1)
  | Key.up => ((p.row : Int) - 1, (p.col : Int))
  | Key.down => ((p.row : Int) + 1, (p.col : Int))

/-- The target coordinates lie on the grid. -/
def inBoundsI (rows cols : Nat) (t : Int × Int) : Prop :=
  0 ≤ t.1 ∧ t.1 < (rows : Int) ∧ 0 ≤ t.2 ∧ t.2 < (cols : Int)

instance (rows cols : Nat) (t : Int × Int) : Decidable (inBoundsI rows cols t) := by
  unfold inBoundsI; infer_instance

/-- The wall of cell `p` on the side the key `k` points to. -/
def wallToward (g : Grid) (p : Pos) (k : Key) : Color :=
  match k with
  | Key.left => (g p).left_border
  | Key.right => (g p).right_border
  | Key.up => (g p).top_border
  | Key.down => (g p).bottom_border

/-- One `Player.update` keypress acting on the pair (maze grid, player
position): the source method writes only the player's own fields. -/
def player_update_state (rows cols : Nat) (s : Grid × Pos) (k : Key) : Grid × Pos :=
  (s.1, player_update s.1 rows cols s.2 k)

theorem player_update_moves_iff (g : Grid) (rows cols : Nat) (p : Pos) (k : Key)
    (hp : InBounds rows cols p) :
    (player_update g rows cols p k ≠ p ↔
      inBoundsI rows cols (targetOf p k) ∧ wallToward g p k ≠ BLACK) ∧
    (inBoundsI rows cols (targetOf p k) ∧ wallToward g p k ≠ BLACK →
      ((player_update g rows cols p k).row : Int) = (targetOf p k).1 ∧
      ((player_update g rows cols p k).col : Int) = (targetOf p k).2) := by
  obtain ⟨hr, hc⟩ := hp
  cases k
  case left =>
    by_cases h1 : 0 < p.col ∧ (g p).left_border ≠ BLACK
    · simp only [player_update, targetOf, wallToward, inBoundsI, if_pos h1]
      obtain ⟨hcol, hw⟩ := h1
      refine ⟨⟨fun _ => ⟨⟨by omega, by omega, by omega, by omega⟩, hw⟩, fun _ hcon => ?_⟩,
        fun _ => ⟨trivial, by omega⟩⟩
      have h2 := congrArg Pos.col hcon
      simp only at h2
      omega
    · simp only [player_update, targetOf, wallToward, inBoundsI, if_neg h1]
      constructor
      · constructor
        · intro hcon; exact absurd rfl hcon
        · rintro ⟨⟨a1, a2, a3, a4⟩, hw⟩
          exact absurd ⟨by omega, hw⟩ h1
      · rintro ⟨⟨a1, a2, a3, a4⟩, hw⟩
        exact absurd ⟨by omega, hw⟩ h1
  case right =>
    by_cases h1 : p.col < cols - 1 ∧ (g p).right_border ≠ BLACK
    · simp only [player_update, targetOf, wallToward, inBoundsI, if_pos h1]
      obtain ⟨hcol, hw⟩ := h1
      refine ⟨⟨fun _ => ⟨⟨by omega, by omega, by omega, by omega⟩, hw⟩, fun _ hcon => ?_⟩,
        fun _ => ⟨trivial, by omega⟩⟩
      have h2 := congrArg Pos.col hcon
      simp only at h2
      omega
    · simp only [player_update, targetOf, wallToward, inBoundsI, if_neg h1]
      constructor
      · constructor
        · intro hcon; exact absurd rfl hcon
        · rintro ⟨⟨a1, a2, a3, a4⟩, hw⟩
          exact absurd ⟨by omega, hw⟩ h1
      · rintro ⟨⟨a1, a2, a3, a4⟩, hw⟩
        exact absurd ⟨by omega, hw⟩ h1
  case up =>
    by_cases h1 : 0 < p.row ∧ (g p).top_border ≠ BLACK
    · simp only [player_update, targetOf, wallToward, inBoundsI, if_pos h1]
      obtain ⟨hrow, hw⟩ := h1
      refine ⟨⟨fun _ => ⟨⟨by omega, by omega, by omega, by omega⟩, hw⟩, fun _ hcon => ?_⟩,
        fun _ => ⟨by omega, trivial⟩⟩
      have h2 := congrArg Pos.row hcon
      simp only at h2
      omega
    · simp only [player_update, targetOf, wallToward, inBoundsI, if_neg h1]
      constructor
      · constructor
        · intro hcon; exact absurd rfl hcon
        · rintro ⟨⟨a1, a2, a3, a4⟩, hw⟩
          exact absurd ⟨by omega, hw⟩ h1
      · rintro ⟨⟨a1, a2, a3, a4⟩, hw⟩
        exact absurd ⟨by omega, hw⟩ h1
  case down =>
    by_cases h1 : p.row < rows - 1 ∧ (g p).bottom_border ≠ BLACK
    · simp only [player_update, targetOf, wallToward, inBoundsI, if_pos h1]
      obtain ⟨hrow, hw⟩ := h1
      refine ⟨⟨fun _ => ⟨⟨by omega, by omega, by omega, by omega⟩, hw⟩, fun _ hcon => ?_⟩,
        fun _ => ⟨by omega, trivial⟩⟩
      have h2 := congrArg Pos.row hcon
      simp only at h2
      omega
    · simp only [player_update, targetOf, wallToward, inBoundsI, if_neg h1]
      constructor
      · constructor
        · intro hcon; exact absurd rfl hcon
        · rintro ⟨⟨a1, a2, a3, a4⟩, hw⟩
          exact absurd ⟨by omega, hw⟩ h1
      · rintro ⟨⟨a1, a2, a3, a4⟩, hw⟩
        exact absurd ⟨by omega, hw⟩ h1

/-- The wall color of cell `a` on its side facing cell `b` (black when
`b` is not adjacent to `a`). -/
def borderToward (g : Grid) (a b : Pos) : Color :=
  if a.row = b.row ∧ b.col = a.col + 1 then (g a).right_border
  else if a.row = b.row ∧ a.col = b.col + 1 then (g a).left_border
  else if a.col = b.col ∧ b.row = a.row + 1 then (g a).bottom_border
  else if a.col = b.col ∧ a.row = b.row + 1 then (g a).top_border
  else BLACK

theorem Adj.ne {a b : Pos} (h : Adj a b) : a ≠ b := by
  rintro rfl
  rcases h with ⟨_, h | h⟩ | ⟨_, h | h⟩ <;> omega

theorem Adj.symm {a b : Pos} (h : Adj a b) : Adj b a := by
  rcases h with ⟨h1, h2 | h2⟩ | ⟨h1, h2 | h2⟩
  · exact Or.inl ⟨h1.symm, Or.inr h2⟩
  · exact Or.inl ⟨h1.symm, Or.inl h2⟩
  · exact Or.inr ⟨h1.symm, Or.inr h2⟩
  · exact Or.inr ⟨h1.symm, Or.inl h2⟩

theorem break_border_not_adj {g : Grid} {a b : Pos} {c : Color} (h : ¬ Adj a b) :
    break_border g a b c = g := by
  unfold break_border
  by_cases h1 : a.row = b.row
  · by_cases h2 : b.col = a.col + 1
    · exact absurd (Or.inl ⟨h1, Or.inl h2⟩) h
    by_cases h3 : a.col = b.col + 1
    · exact absurd (Or.inl ⟨h1, Or.inr h3⟩) h
    simp [h1, h2, h3]
  · by_cases h4 : a.col = b.col
    · by_cases h5 : b.row = a.row + 1
      · exact absurd (Or.inr ⟨h4, Or.inl h5⟩) h
      by_cases h6 : a.row = b.row + 1
      · exact absurd (Or.inr ⟨h4, Or.inr h6⟩) h
      simp [h1, h4, h5, h6]
    · simp [h1, h4]

theorem break_border_right {g : Grid} {a b : Pos} {c : Color}
    (h1 : a.row = b.row) (h2 : b.col = a.col + 1) :
    break_border g a b c a = { g a with right_border := c } ∧
    break_border g a b c b = { g b with left_border := c } ∧
    ∀ p, p ≠ a → p ≠ b → break_border g a b c p = g p := by
  have hab : a ≠ b := by intro he; rw [he] at h2; omega
  unfold break_border
  rw [if_pos h1, if_pos h2]
  refine ⟨?_, ?_, ?_⟩
  · rw [Grid.modify_other _ _ _ _ hab, Grid.modify_same]
  · rw [Grid.modify_same, Grid.modify_other _ _ _ _ (fun he => hab he.symm)]
  · intro p hpa hpb
    rw [Grid.modify_other _ _ _ _ hpb, Grid.modify_other _ _ _ _ hpa]

theorem break_border_left {g : Grid} {a b : Pos} {c : Color}
    (h1 : a.row = b.row) (h2 : a.col = b.col + 1) :
    break_border g a b c a = { g a with left_border := c } ∧
    break_border g a b c b = { g b with right_border := c } ∧
    ∀ p, p ≠ a → p ≠ b → break_border g a b c p = g p := by
  have hab : a ≠ b := by intro he; rw [he] at h2; omega
  have h3 : ¬ b.col = a.col + 1 := by omega
  unfold break_border
  rw [if_pos h1, if_neg h3, if_pos h2]
  refine ⟨?_, ?_, ?_⟩
  · rw [Grid.modify_other _ _ _ _ hab, Grid.modify_same]
  · rw [Grid.modify_same, Grid.modify_other _ _ _ _ (fun he => hab he.symm)]
  · intro p hpa hpb
    rw [Grid.modify_other _ _ _ _ hpb, Grid.modify_other _ _ _ _ hpa]

theorem break_border_down {g : Grid} {a b : Pos} {c : Color}
    (h1 : a.col = b.col) (h2 : b.row = a.row + 1) :
    break_border g a b c a = { g a with bottom_border := c } ∧
    break_border g a b c b = { g b with top_border := c } ∧
    ∀ p, p ≠ a → p ≠ b → break_border g a b c p = g p := by
  have hab : a ≠ b := by intro he; rw [he] at h2; omega
  have h0 : ¬ a.row = b.row := by omega
  unfold break_border
  rw [if_neg h0, if_pos h1, if_pos h2]
  refine ⟨?_, ?_, ?_⟩
  · rw [Grid.modify_other _ _ _ _ hab, Grid.modify_same]
  · rw [Grid.modify_same, Grid.modify_other _ _ _ _ (fun he => hab he.symm)]
  · intro p hpa hpb
    rw [Grid.modify_other _ _ _ _ hpb, Grid.modify_other _ _ _ _ hpa]

theorem break_border_up {g : Grid} {a b : Pos} {c : Color}
    (h1 : a.col = b.col) (h2 : a.row = b.row + 1) :
    break_border g a b c a = { g a with top_border := c } ∧
    break_border g a b c b = { g b with bottom_border := c } ∧
    ∀ p, p ≠ a → p ≠ b → break_border g a b c p = g p := by
  have hab : a ≠ b := by intro he; rw [he] at h2; omega
  have h0 : ¬ a.row = b.row := by omega
  have h3 : ¬ b.row = a.row + 1 := by omega
  unfold break_border
  rw [if_neg h0, if_pos h1, if_neg h3, if_pos h2]
  refine ⟨?_, ?_, ?_⟩
  · rw [Grid.modify_other _ _ _ _ hab, Grid.modify_same]
  · rw [Grid.modify_same, Grid.modify_other _ _ _ _ (fun he => hab he.symm)]
  · intro p hpa hpb
    rw [Grid.modify_other _ _ _ _ hpb, Grid.modify_other _ _ _ _ hpa]

theorem borderToward_right {g : Grid} {a b : Pos}
    (h1 : a.row = b.row) (h2 : b.col = a.col + 1) :
    borderToward g a b = (g a).right_border ∧ borderToward g b a = (g b).left_border := by
  unfold borderToward
  constructor
  · rw [if_pos ⟨h1, h2⟩]
  · rw [if_neg (by rintro ⟨_, h⟩; omega), if_pos ⟨h1.symm, h2⟩]

theorem borderToward_left {g : Grid} {a b : Pos}
    (h1 : a.row = b.row) (h2 : a.col = b.col + 1) :
    borderToward g a b = (g a).left_border ∧ borderToward g b a = (g b).right_border := by
  unfold borderToward
  constructor
  · rw [if_neg (by rintro ⟨_, h⟩; omega), if_pos ⟨h1, h2⟩]
  · rw [if_pos ⟨h1.symm, h2⟩]

theorem borderToward_down {g : Grid} {a b : Pos}
    (h1 : a.col = b.col) (h2 : b.row = a.row + 1) :
    borderToward g a b = (g a).bottom_border ∧ borderToward g b a = (g b).top_border := by
  unfold borderToward
  constructor
  · rw [if_neg (by rintro ⟨h, _⟩; omega), if_neg (by rintro ⟨h, _⟩; omega),
      if_pos ⟨h1, h2⟩]
  · rw [if_neg (by rintro ⟨h, _⟩; omega), if_neg (by rintro ⟨h, _⟩; omega),
      if_neg (by rintro ⟨_, h⟩; omega), if_pos ⟨h1.symm, h2⟩]

theorem borderToward_up {g : Grid} {a b : Pos}
    (h1 : a.col = b.col) (h2 : a.row = b.row + 1) :
    borderToward g a b = (g a).top_border ∧ borderToward g b a = (g b).bottom_border := by
  unfold borderToward
  constructor
  · rw [if_neg (by rintro ⟨h, _⟩; omega), if_neg (by rintro ⟨h, _⟩; omega),
      if_neg (by rintro ⟨_, h⟩; omega), if_pos ⟨h1, h2⟩]
  · rw [if_neg (by rintro ⟨h, _⟩; omega), if_neg (by rintro ⟨h, _⟩; omega),
      if_pos ⟨h1.symm, h2⟩]

theorem add_edge_mem (g : Grid) (a b : Pos) :
    Edge (add_edge g a b) a b ∧ Edge (add_edge g a b) b a := by
  have hε : add_edge g a b =
      ((g.modify a (fun n => { n with connected_neighbors := n.connected_neighbors ++ [b] })).modify
        b (fun n => { n with connected_neighbors := n.connected_neighbors ++ [a] })) := rfl
  unfold Edge
  rw [hε]
  by_cases hab : a = b
  · subst hab
    rw [Grid.modify_same, Grid.modify_same]
    constructor <;> simp
  · constructor
    · rw [Grid.modify_other _ _ _ _ hab, Grid.modify_same]
      simp
    · rw [Grid.modify_same, Grid.modify_other _ _ _ _ (fun he => hab he.symm)]
      simp

theorem Pos.ext_rc {p q : Pos} (h1 : p.row = q.row) (h2 : p.col = q.col) : p = q := by
  cases p; cases q; simp_all

/-- Wall openness is symmetric across every geometrically adjacent pair:
the wall of `a` toward `b` is open (non-black) exactly when the wall of
`b` toward `a` is. -/
def SymOpen (g : Grid) : Prop :=
  ∀ a b, Adj a b → (borderToward g a b = BLACK ↔ borderToward g b a = BLACK)

theorem borderToward_break_border_frame {g : Grid} {a b x y : Pos} {c : Color}
    (hadj : Adj a b) (hne1 : ¬(x = a ∧ y = b)) (hne2 : ¬(x = b ∧ y = a)) :
    borderToward (break_border g a b c) x y = borderToward g x y := by
  rcases hadj with ⟨h1, h2 | h2⟩ | ⟨h1, h2 | h2⟩
  · obtain ⟨hca, hcb, hother⟩ := break_border_right (g := g) (c := c) h1 h2
    by_cases hx : x = a
    · subst hx
      have hyb : y ≠ b := fun he => hne1 ⟨rfl, he⟩
      have hcond : ¬(x.row = y.row ∧ y.col = x.col + 1) := by
        rintro ⟨e1, e2⟩
        exact hyb (Pos.ext_rc (by omega) (by omega))
      unfold borderToward
      rw [hca]
      simp only [if_neg hcond]
    · by_cases hx2 : x = b
      · subst hx2
        have hya : y ≠ a := fun he => hne2 ⟨rfl, he⟩
        have hcond : ¬(x.row = y.row ∧ x.col = y.col + 1) := by
          rintro ⟨e1, e2⟩
          exact hya (Pos.ext_rc (by omega) (by omega))
        unfold borderToward
        rw [hcb]
        simp only [if_neg hcond]
      · unfold borderToward
        rw [hother x hx hx2]
  · obtain ⟨hca, hcb, hother⟩ := break_border_left (g := g) (c := c) h1 h2
    by_cases hx : x = a
    · subst hx
      have hyb : y ≠ b := fun he => hne1 ⟨rfl, he⟩
      have hcond : ¬(x.row = y.row ∧ x.col = y.col + 1) := by
        rintro ⟨e1, e2⟩
        exact hyb (Pos.ext_rc (by omega) (by omega))
      unfold borderToward
      rw [hca]
      simp only [if_neg hcond]
    · by_cases hx2 : x = b
      · subst hx2
        have hya : y ≠ a := fun he => hne2 ⟨rfl, he⟩
        have hcond : ¬(x.row = y.row ∧ y.col = x.col + 1) := by
          rintro ⟨e1, e2⟩
          exact hya (Pos.ext_rc (by omega) (by omega))
        unfold borderToward
        rw [hcb]
        simp only [if_neg hcond]
      · unfold borderToward
        rw [hother x hx hx2]
  · obtain ⟨hca, hcb, hother⟩ := break_border_down (g := g) (c := c) h1 h2
    by_cases hx : x = a
    · subst hx
      have hyb : y ≠ b := fun he => hne1 ⟨rfl, he⟩
      have hcond : ¬(x.col = y.col ∧ y.row = x.row + 1) := by
        rintro ⟨e1, e2⟩
        exact hyb (Pos.ext_rc (by omega) (by omega))
      unfold borderToward
      rw [hca]
      simp only [if_neg hcond]
    · by_cases hx2 : x = b
      · subst hx2
        have hya : y ≠ a := fun he => hne2 ⟨rfl, he⟩
        have hcond : ¬(x.col = y.col ∧ x.row = y.row + 1) := by
          rintro ⟨e1, e2⟩
          exact hya (Pos.ext_rc (by omega) (by omega))
        unfold borderToward
        rw [hcb]
        simp only [if_neg hcond]
      · unfold borderToward
        rw [hother x hx hx2]
  · obtain ⟨hca, hcb, hother⟩ := break_border_up (g := g) (c := c) h1 h2
    by_cases hx : x = a
    · subst hx
      have hyb : y ≠ b := fun he => hne1 ⟨rfl, he⟩
      have hcond : ¬(x.col = y.col ∧ x.row = y.row + 1) := by
        rintro ⟨e1, e2⟩
        exact hyb (Pos.ext_rc (by omega) (by omega))
      unfold borderToward
      rw [hca]
      simp only [if_neg hcond]
    · by_cases hx2 : x = b
      · subst hx2
        have hya : y ≠ a := fun he => hne2 ⟨rfl, he⟩
        have hcond : ¬(x.col = y.col ∧ y.row = x.row + 1) := by
          rintro ⟨e1, e2⟩
          exact hya (Pos.ext_rc (by omega) (by omega))
        unfold borderToward
        rw [hcb]
        simp only [if_neg hcond]
      · unfold borderToward
        rw [hother x hx hx2]

theorem symOpen_break_border {g : Grid} (a b : Pos) (c : Color) (hs : SymOpen g) :
    SymOpen (break_border g a b c) := by
  by_cases hadj : Adj a b
  · intro x y hxy
    by_cases hc1 : x = a ∧ y = b
    · obtain ⟨rfl, rfl⟩ := hc1
      rcases hadj with ⟨h1, h2 | h2⟩ | ⟨h1, h2 | h2⟩
      · obtain ⟨hca, hcb, _⟩ := break_border_right (g := g) (c := c) h1 h2
        obtain ⟨e1, e2⟩ := borderToward_right (g := break_border g x y c) h1 h2
        rw [e1, e2, hca, hcb]
      · obtain ⟨hca, hcb, _⟩ := break_border_left (g := g) (c := c) h1 h2
        obtain ⟨e1, e2⟩ := borderToward_left (g := break_border g x y c) h1 h2
        rw [e1, e2, hca, hcb]
      · obtain ⟨hca, hcb, _⟩ := break_border_down (g := g) (c := c) h1 h2
        obtain ⟨e1, e2⟩ := borderToward_down (g := break_border g x y c) h1 h2
        rw [e1, e2, hca, hcb]
      · obtain ⟨hca, hcb, _⟩ := break_border_up (g := g) (c := c) h1 h2
        obtain ⟨e1, e2⟩ := borderToward_up (g := break_border g x y c) h1 h2
        rw [e1, e2, hca, hcb]
    · by_cases hc2 : x = b ∧ y = a
      · obtain ⟨rfl, rfl⟩ := hc2
        rcases hadj with ⟨h1, h2 | h2⟩ | ⟨h1, h2 | h2⟩
        · obtain ⟨hca, hcb, _⟩ := break_border_right (g := g) (c := c) h1 h2
          obtain ⟨e1, e2⟩ := borderToward_right (g := break_border g y x c) h1 h2
          rw [e1, e2, hca, hcb]
        · obtain ⟨hca, hcb, _⟩ := break_border_left (g := g) (c := c) h1 h2
          obtain ⟨e1, e2⟩ := borderToward_left (g := break_border g y x c) h1 h2
          rw [e1, e2, hca, hcb]
        · obtain ⟨hca, hcb, _⟩ := break_border_down (g := g) (c := c) h1 h2
          obtain ⟨e1, e2⟩ := borderToward_down (g := break_border g y x c) h1 h2
          rw [e1, e2, hca, hcb]
        · obtain ⟨hca, hcb, _⟩ := break_border_up (g := g) (c := c) h1 h2
          obtain ⟨e1, e2⟩ := borderToward_up (g := break_border g y x c) h1 h2
          rw [e1, e2, hca, hcb]
      · have hc1' : ¬(y = a ∧ x = b) := fun ⟨u, v⟩ => hc2 ⟨v, u⟩
        have hc2' : ¬(y = b ∧ x = a) := fun ⟨u, v⟩ => hc1 ⟨v, u⟩
        rw [borderToward_break_border_frame hadj hc1 hc2,
          borderToward_break_border_frame hadj hc1' hc2']
        exact hs x y hxy
  · rw [break_border_not_adj hadj]
    exact hs

/-- The two heaps agree on whether each wall is black. -/
def BlackEq (g g' : Grid) : Prop :=
  ∀ p, ((g' p).top_border = BLACK ↔ (g p).top_border = BLACK) ∧
       ((g' p).bottom_border = BLACK ↔ (g p).bottom_border = BLACK) ∧
       ((g' p).left_border = BLACK ↔ (g p).left_border = BLACK) ∧
       ((g' p).right_border = BLACK ↔ (g p).right_border = BLACK)

/-- The two heaps have identical walls. -/
def BordersEq (g g' : Grid) : Prop :=
  ∀ p, (g' p).top_border = (g p).top_border ∧
       (g' p).bottom_border = (g p).bottom_border ∧
       (g' p).left_border = (g p).left_border ∧
       (g' p).right_border = (g p).right_border

theorem blackEq_of_bordersEq {g g' : Grid} (h : BordersEq g g') : BlackEq g g' := by
  intro p
  obtain ⟨h1, h2, h3, h4⟩ := h p
  exact ⟨by rw [h1], by rw [h2], by rw [h3], by rw [h4]⟩

theorem borderToward_blackEq {g g' : Grid} (h : BlackEq g g') {a b : Pos} (hadj : Adj a b) :
    (borderToward g' a b = BLACK ↔ borderToward g a b = BLACK) := by
  rcases hadj with ⟨h1, h2 | h2⟩ | ⟨h1, h2 | h2⟩
  · rw [(borderToward_right (g := g') h1 h2).1, (borderToward_right (g := g) h1 h2).1]
    exact (h a).2.2.2
  · rw [(borderToward_left (g := g') h1 h2).1, (borderToward_left (g := g) h1 h2).1]
    exact (h a).2.2.1
  · rw [(borderToward_down (g := g') h1 h2).1, (borderToward_down (g := g) h1 h2).1]
    exact (h a).2.1
  · rw [(borderToward_up (g := g') h1 h2).1, (borderToward_up (g := g) h1 h2).1]
    exact (h a).1

theorem symOpen_blackEq {g g' : Grid} (h : BlackEq g g') (hs : SymOpen g) : SymOpen g' := by
  intro a b hadj
  rw [borderToward_blackEq h hadj, borderToward_blackEq h hadj.symm]
  exact hs a b hadj

theorem recolor_black_iff (x old new : Color) (hold : old ≠ BLACK) (hnew : new ≠ BLACK) :
    ((if x = old then new else x) = BLACK ↔ x = BLACK) := by
  by_cases h : x = old
  · rw [if_pos h, h]
    exact ⟨fun hc => absurd hc hnew, fun hc => absurd hc hold⟩
  · rw [if_neg h]

theorem blackEq_modify {g : Grid} {p : Pos} {f : Node → Node}
    (ht : (f (g p)).top_border = BLACK ↔ (g p).top_border = BLACK)
    (hb : (f (g p)).bottom_border = BLACK ↔ (g p).bottom_border = BLACK)
    (hl : (f (g p)).left_border = BLACK ↔ (g p).left_border = BLACK)
    (hr : (f (g p)).right_border = BLACK ↔ (g p).right_border = BLACK) :
    BlackEq g (g.modify p f) := by
  intro q
  by_cases hq : q = p
  · subst hq
    rw [Grid.modify_same]
    exact ⟨ht, hb, hl, hr⟩
  · rw [Grid.modify_other _ _ _ _ hq]
    exact ⟨Iff.rfl, Iff.rfl, Iff.rfl, Iff.rfl⟩

theorem bordersEq_modify {g : Grid} {p : Pos} {f : Node → Node}
    (ht : (f (g p)).top_border = (g p).top_border)
    (hb : (f (g p)).bottom_border = (g p).bottom_border)
    (hl : (f (g p)).left_border = (g p).left_border)
    (hr : (f (g p)).right_border = (g p).right_border) :
    BordersEq g (g.modify p f) := by
  intro q
  by_cases hq : q = p
  · subst hq
    rw [Grid.modify_same]
    exact ⟨ht, hb, hl, hr⟩
  · rw [Grid.modify_other _ _ _ _ hq]
    exact ⟨rfl, rfl, rfl, rfl⟩

theorem blackEq_backtrackRecolor (g : Grid) (p : Pos) :
    BlackEq g (g.modify p backtrackRecolor) :=
  blackEq_modify
    (recolor_black_iff _ _ _ (by decide) (by decide))
    (recolor_black_iff _ _ _ (by decide) (by decide))
    (recolor_black_iff _ _ _ (by decide) (by decide))
    (recolor_black_iff _ _ _ (by decide) (by decide))

theorem blackEq_solveRecolor (g : Grid) (p : Pos) :
    BlackEq g (g.modify p solveRecolor) :=
  blackEq_modify
    (recolor_black_iff _ _ _ (by decide) (by decide))
    (recolor_black_iff _ _ _ (by decide) (by decide))
    (recolor_black_iff _ _ _ (by decide) (by decide))
    (recolor_black_iff _ _ _ (by decide) (by decide))

theorem blackEq_orangeRecolor (g : Grid) (p : Pos) :
    BlackEq g (g.modify p orangeRecolor) :=
  blackEq_modify
    (recolor_black_iff _ _ _ (by decide) (by decide))
    (recolor_black_iff _ _ _ (by decide) (by decide))
    (recolor_black_iff _ _ _ (by decide) (by decide))
    (recolor_black_iff _ _ _ (by decide) (by decide))

theorem bordersEq_remove_visited (g : Grid) (p : Pos) :
    BordersEq g (remove_visited_neighbors g p) :=
  bordersEq_modify rfl rfl rfl rfl

theorem bordersEq_add_edge (g : Grid) (a b : Pos) :
    BordersEq g (add_edge g a b) := by
  intro q
  have hε : add_edge g a b =
      ((g.modify a (fun n => { n with connected_neighbors := n.connected_neighbors ++ [b] })).modify
        b (fun n => { n with connected_neighbors := n.connected_neighbors ++ [a] })) := rfl
  rw [hε]
  by_cases hqb : q = b
  · subst hqb
    rw [Grid.modify_same]
    by_cases hqa : q = a
    · subst hqa
      rw [Grid.modify_same]
      exact ⟨rfl, rfl, rfl, rfl⟩
    · rw [Grid.modify_other _ _ _ _ hqa]
      exact ⟨rfl, rfl, rfl, rfl⟩
  · rw [Grid.modify_other _ _ _ _ hqb]
    by_cases hqa : q = a
    · subst hqa
      rw [Grid.modify_same]
      exact ⟨rfl, rfl, rfl, rfl⟩
    · rw [Grid.modify_other _ _ _ _ hqa]
      exact ⟨rfl, rfl, rfl, rfl⟩

theorem bordersEq_markVisited (g : Grid) (p : Pos) :
    BordersEq g (g.modify p markVisited) :=
  bordersEq_modify rfl rfl rfl rfl

theorem bordersEq_markExplored (g : Grid) (p u : Pos) :
    BordersEq g (g.modify p (markExplored u)) :=
  bordersEq_modify rfl rfl rfl rfl

theorem symOpen_generateStep (rand : Nat → Nat) (s : GenState) (hs : SymOpen s.grid) :
    SymOpen (generateStep rand s).grid := by
  unfold generateStep genStepGo
  have hs1 : SymOpen (remove_visited_neighbors s.grid s.current) :=
    symOpen_blackEq (blackEq_of_bordersEq (bordersEq_remove_visited s.grid s.current)) hs
  by_cases hnb : ((remove_visited_neighbors s.grid s.current) s.current).neighbors = []
  · rw [if_pos hnb]
    exact symOpen_blackEq (blackEq_backtrackRecolor _ _) hs1
  · rw [if_neg hnb]
    apply symOpen_blackEq (blackEq_of_bordersEq (bordersEq_markVisited _ _))
    apply symOpen_blackEq (blackEq_of_bordersEq (bordersEq_add_edge _ _ _))
    exact symOpen_break_border _ _ _ hs1

theorem bfs_expand_grid (goal u : Pos) :
    ∀ (nbrs : List Pos) (g : Grid) (q : List Pos),
      ∃ marked : List Pos,
        (bfs_expand goal u g q nbrs).1 =
          marked.foldl (fun gg p => gg.modify p (markExplored u)) g := by
  intro nbrs
  induction nbrs with
  | nil => intro g q; exact ⟨[], rfl⟩
  | cons nb rest ih =>
    intro g q
    unfold bfs_expand
    by_cases he : (g nb).explored
    · rw [if_pos he]
      exact ih g q
    · rw [if_neg he]
      by_cases hgoal : nb.row = goal.row ∧ nb.col = goal.col
      · rw [if_pos hgoal]
        exact ⟨[nb], rfl⟩
      · rw [if_neg hgoal]
        obtain ⟨m, hm⟩ := ih (g.modify nb (markExplored u)) (q ++ [nb])
        exact ⟨nb :: m, hm⟩

theorem symOpen_foldl_markExplored (u : Pos) (l : List Pos) :
    ∀ g : Grid, SymOpen g →
      SymOpen (l.foldl (fun gg p => gg.modify p (markExplored u)) g) := by
  induction l with
  | nil => intro g hg; exact hg
  | cons p rest ih =>
    intro g hg
    exact ih _ (symOpen_blackEq (blackEq_of_bordersEq (bordersEq_markExplored g p u)) hg)

theorem symOpen_solveStep (goal : Pos) (s : SolveState) (hs : SymOpen s.grid) :
    SymOpen (solveStep goal s).grid := by
  unfold solveStep
  match hq : s.queue with
  | [] => exact hs
  | u :: rest =>
    dsimp only
    obtain ⟨m, hm⟩ := bfs_expand_grid goal u ((s.grid.modify u solveRecolor u).connected_neighbors)
      (s.grid.modify u solveRecolor) rest
    rw [hm]
    apply symOpen_foldl_markExplored
    exact symOpen_blackEq (blackEq_solveRecolor _ _) hs

theorem borderToward_initGrid (rows cols : Nat) (a b : Pos) :
    borderToward (initGrid rows cols) a b = BLACK := by
  unfold borderToward
  split_ifs <;> rfl

theorem symOpen_initGrid (rows cols : Nat) : SymOpen (initGrid rows cols) := by
  intro a b _
  rw [borderToward_initGrid, borderToward_initGrid]

theorem symOpen_genInit (rand : Nat → Nat) (rows cols : Nat) :
    SymOpen (genInit rand rows cols).grid :=
  symOpen_blackEq (blackEq_of_bordersEq (bordersEq_markVisited _ _)) (symOpen_initGrid rows cols)

theorem symOpen_generateLoop (rand : Nat → Nat) (total : Nat) :
    ∀ (fuel : Nat) (s : GenState), SymOpen s.grid →
      SymOpen (generateLoop rand total fuel s).grid := by
  intro fuel
  induction fuel with
  | zero => intro s hs; exact hs
  | succ fuel ih =>
    intro s hs
    unfold generateLoop
    by_cases hc : s.visitedCount < total ∧ s.stack ≠ []
    · rw [if_pos hc]
      exact ih _ (symOpen_generateStep rand s hs)
    · rw [if_neg hc]
      exact hs

theorem symOpen_generate (rand : Nat → Nat) (rows cols : Nat) :
    SymOpen (generate rand rows cols).grid :=
  symOpen_generateLoop rand _ _ _ (symOpen_genInit rand rows cols)

theorem symOpen_solveLoop (goal : Pos) :
    ∀ (fuel : Nat) (s : SolveState), SymOpen s.grid →
      SymOpen (solveLoop goal fuel s).grid := by
  intro fuel
  induction fuel with
  | zero => intro s hs; exact hs
  | succ fuel ih =>
    intro s hs
    unfold solveLoop
    by_cases hc : s.queue ≠ [] ∧ s.found = false
    · rw [if_pos hc]
      exact ih _ (symOpen_solveStep goal s hs)
    · rw [if_neg hc]
      exact hs

theorem symOpen_backtrackLoop :
    ∀ (fuel : Nat) (g : Grid) (cur : Pos) (acc : List Pos), SymOpen g →
      SymOpen (backtrackLoop fuel g cur acc).1 := by
  intro fuel
  induction fuel with
  | zero => intro g cur acc hg; exact hg
  | succ fuel ih =>
    intro g cur acc hg
    unfold backtrackLoop
    split
    · exact hg
    · split
      · exact hg
      · exact ih _ _ _ (symOpen_blackEq (blackEq_orangeRecolor g _) hg)

theorem symOpen_solve_with_bfs (g : Grid) (start goal : Pos) (fuel : Nat)
    (hg : SymOpen g) : SymOpen (solve_with_bfs g start goal fuel).1.grid := by
  unfold solve_with_bfs
  dsimp only
  apply symOpen_backtrackLoop
  apply symOpen_solveLoop
  dsimp only
  exact symOpen_blackEq (blackEq_of_bordersEq (bordersEq_modify rfl rfl rfl rfl)) hg

theorem borderToward_break_border_adj {g : Grid} {a b : Pos} {c : Color} (hadj : Adj a b) :
    borderToward (break_border g a b c) a b = c ∧
    borderToward (break_border g a b c) b a = c := by
  rcases hadj with ⟨h1, h2 | h2⟩ | ⟨h1, h2 | h2⟩
  · obtain ⟨hca, hcb, _⟩ := break_border_right (g := g) (c := c) h1 h2
    obtain ⟨e1, e2⟩ := borderToward_right (g := break_border g a b c) h1 h2
    rw [e1, e2, hca, hcb]
    exact ⟨rfl, rfl⟩
  · obtain ⟨hca, hcb, _⟩ := break_border_left (g := g) (c := c) h1 h2
    obtain ⟨e1, e2⟩ := borderToward_left (g := break_border g a b c) h1 h2
    rw [e1, e2, hca, hcb]
    exact ⟨rfl, rfl⟩
  · obtain ⟨hca, hcb, _⟩ := break_border_down (g := g) (c := c) h1 h2
    obtain ⟨e1, e2⟩ := borderToward_down (g := break_border g a b c) h1 h2
    rw [e1, e2, hca, hcb]
    exact ⟨rfl, rfl⟩
  · obtain ⟨hca, hcb, _⟩ := break_border_up (g := g) (c := c) h1 h2
    obtain ⟨e1, e2⟩ := borderToward_up (g := break_border g a b c) h1 h2
    rw [e1, e2, hca, hcb]
    exact ⟨rfl, rfl⟩

theorem modify_field_eq {A : Type} (F : Node → A) {g : Grid} {q : Pos} {f : Node → Node}
    (h : ∀ n, F (f n) = F n) (p : Pos) : F ((g.modify q f) p) = F (g p) := by
  by_cases hp : p = q
  · subst hp
    rw [Grid.modify_same]
    exact h _
  · rw [Grid.modify_other _ _ _ _ hp]

theorem break_border_field {A : Type} {F : Node → A}
    (htop : ∀ n x, F { n with top_border := x } = F n)
    (hbot : ∀ n x, F { n with bottom_border := x } = F n)
    (hleft : ∀ n x, F { n with left_border := x } = F n)
    (hright : ∀ n x, F { n with right_border := x } = F n)
    (g : Grid) (a b : Pos) (c : Color) (p : Pos) :
    F ((break_border g a b c) p) = F (g p) := by
  unfold break_border
  split_ifs
  · rw [modify_field_eq F (fun n => hleft n c), modify_field_eq F (fun n => hright n c)]
  · rw [modify_field_eq F (fun n => hright n c), modify_field_eq F (fun n => hleft n c)]
  · rfl
  · rw [modify_field_eq F (fun n => htop n c), modify_field_eq F (fun n => hbot n c)]
  · rw [modify_field_eq F (fun n => hbot n c), modify_field_eq F (fun n => htop n c)]
  · rfl
  · rfl

theorem add_edge_field {A : Type} {F : Node → A}
    (hconn : ∀ n l, F { n with connected_neighbors := l } = F n)
    (g : Grid) (a b : Pos) (p : Pos) :
    F ((add_edge g a b) p) = F (g p) := by
  have hε : add_edge g a b =
      ((g.modify a (fun n => { n with connected_neighbors := n.connected_neighbors ++ [b] })).modify
        b (fun n => { n with connected_neighbors := n.connected_neighbors ++ [a] })) := rfl
  rw [hε, modify_field_eq F (fun n => hconn n _), modify_field_eq F (fun n => hconn n _)]

/-- The fields of a cell that the generator reads: geometric neighbors,
connectivity, visited flag. -/
def genFields (n : Node) : List Pos × List Pos × Bool :=
  (n.neighbors, n.connected_neighbors, n.visited)

/-- The fields of a cell that the solver writes: explored flag and
parent pointer. -/
def solveFields (n : Node) : Bool × Option Pos :=
  (n.explored, n.parent)

theorem generateStep_neighbors_subset (rand : Nat → Nat) (s : GenState) (p : Pos) :
    ((generateStep rand s).grid p).neighbors ⊆ (s.grid p).neighbors := by
  unfold generateStep genStepGo
  have hg1 : ∀ q, ((remove_visited_neighbors s.grid s.current) q).neighbors ⊆
      (s.grid q).neighbors := by
    intro q
    unfold remove_visited_neighbors
    by_cases hq : q = s.current
    · subst hq
      rw [Grid.modify_same]
      exact fun x hx => List.mem_of_mem_filter hx
    · rw [Grid.modify_other _ _ _ _ hq]
      exact fun x hx => hx
  by_cases hnb : ((remove_visited_neighbors s.grid s.current) s.current).neighbors = []
  · rw [if_pos hnb]
    dsimp only
    rw [modify_field_eq (fun n => n.neighbors) (f := backtrackRecolor) (fun n => rfl) p]
    exact hg1 p
  · rw [if_neg hnb]
    dsimp only
    rw [modify_field_eq (fun n => n.neighbors) (f := markVisited) (fun n => rfl) p,
      add_edge_field (F := fun n => n.neighbors) (fun n l => rfl),
      break_border_field (F := fun n => n.neighbors)
        (fun n x => rfl) (fun n x => rfl) (fun n x => rfl) (fun n x => rfl)]
    exact hg1 p

theorem generateLoop_neighbors_subset (rand : Nat → Nat) (total : Nat) :
    ∀ (fuel : Nat) (s : GenState) (p : Pos),
      ((generateLoop rand total fuel s).grid p).neighbors ⊆ (s.grid p).neighbors := by
  intro fuel
  induction fuel with
  | zero => intro s p; exact fun x hx => hx
  | succ fuel ih =>
    intro s p
    unfold generateLoop
    by_cases hc : s.visitedCount < total ∧ s.stack ≠ []
    · rw [if_pos hc]
      exact fun x hx => generateStep_neighbors_subset rand s p (ih _ p hx)
    · rw [if_neg hc]
      exact fun x hx => hx

theorem generate_neighbors_subset (rand : Nat → Nat) (rows cols : Nat) (p : Pos) :
    ((generate rand rows cols).grid p).neighbors ⊆ geomNeighbors rows cols p := by
  intro x hx
  have h1 := generateLoop_neighbors_subset rand (rows * cols) (2 * (rows * cols))
    (genInit rand rows cols) p hx
  have h2 : ((genInit rand rows cols).grid p).neighbors = geomNeighbors rows cols p := by
    unfold genInit
    dsimp only
    rw [modify_field_eq (fun n => n.neighbors) (f := markVisited) (fun n => rfl) p]
    rfl
  rwa [h2] at h1

theorem bfs_expand_genFields (goal u : Pos) (nbrs : List Pos) (g : Grid) (q : List Pos) (p : Pos) :
    genFields ((bfs_expand goal u g q nbrs).1 p) = genFields (g p) := by
  obtain ⟨m, hm⟩ := bfs_expand_grid goal u nbrs g q
  rw [hm]
  clear hm
  induction m generalizing g with
  | nil => rfl
  | cons x rest ih =>
    rw [List.foldl_cons, ih]
    exact modify_field_eq genFields (f := markExplored u) (fun n => rfl) p

theorem solveStep_genFields (goal : Pos) (s : SolveState) (p : Pos) :
    genFields ((solveStep goal s).grid p) = genFields (s.grid p) := by
  unfold solveStep
  match hq : s.queue with
  | [] => rfl
  | u :: rest =>
    dsimp only
    rw [bfs_expand_genFields]
    exact modify_field_eq genFields (f := solveRecolor) (fun n => rfl) p

theorem solveLoop_genFields (goal : Pos) :
    ∀ (fuel : Nat) (s : SolveState) (p : Pos),
      genFields ((solveLoop goal fuel s).grid p) = genFields (s.grid p) := by
  intro fuel
  induction fuel with
  | zero => intro s p; rfl
  | succ fuel ih =>
    intro s p
    unfold solveLoop
    by_cases hc : s.queue ≠ [] ∧ s.found = false
    · rw [if_pos hc, ih, solveStep_genFields]
    · rw [if_neg hc]

theorem backtrackLoop_genFields :
    ∀ (fuel : Nat) (g : Grid) (cur : Pos) (acc : List Pos) (p : Pos),
      genFields ((backtrackLoop fuel g cur acc).1 p) = genFields (g p) := by
  intro fuel
  induction fuel with
  | zero => intro g cur acc p; rfl
  | succ fuel ih =>
    intro g cur acc p
    unfold backtrackLoop
    split
    · rfl
    · split
      · rfl
      · rw [ih]
        exact modify_field_eq genFields (f := orangeRecolor) (fun n => rfl) p

theorem solve_with_bfs_genFields (g : Grid) (start goal : Pos) (fuel : Nat) (p : Pos) :
    genFields ((solve_with_bfs g start goal fuel).1.grid p) = genFields (g p) := by
  unfold solve_with_bfs
  dsimp only
  rw [backtrackLoop_genFields, solveLoop_genFields]
  exact modify_field_eq genFields (f := fun n => { n with explored := true }) (fun n => rfl) p

/-- A hand-placed wall configuration on the 3×3 grid: the left wall of
the middle cell is open. -/
def c7grid : Grid :=
  (initGrid 3 3).modify (Pos.mk 1 1) (fun n => { n with left_border := GREEN })

/-- C7: for every cell position and every arrow key, the move-legality
check of `Player.update` moves the player exactly when the target cell is
in bounds and the wall on the current cell's corresponding side is open
(non-black); otherwise the player stays put; and the maze grid is never
written. -/
theorem claim_C7_move_legality (g : Grid) (rows cols : Nat) (p : Pos) (k : Key)
    (hp : InBounds rows cols p) :
    (player_update_state rows cols (g, p) k).1 = g ∧
    (player_update g rows cols p k ≠ p ↔
      inBoundsI rows cols (targetOf p k) ∧ wallToward g p k ≠ BLACK) ∧
    (inBoundsI rows cols (targetOf p k) ∧ wallToward g p k ≠ BLACK →
      ((player_update g rows cols p k).row : Int) = (targetOf p k).1 ∧
      ((player_update g rows cols p k).col : Int) = (targetOf p k).2) :=
  ⟨rfl, (player_update_moves_iff g rows cols p k hp).1,
    (player_update_moves_iff g rows cols p k hp).2⟩

set_option maxHeartbeats 1000000 in
/-- Witness for C7 at the 3×3 grid with a hand-placed open wall. -/
theorem claim_C7_move_legality_witness :
    (player_update_state 3 3 (c7grid, Pos.mk 1 1) Key.left).1 = c7grid ∧
    (player_update c7grid 3 3 (Pos.mk 1 1) Key.left ≠ Pos.mk 1 1 ↔
      inBoundsI 3 3 (targetOf (Pos.mk 1 1) Key.left) ∧
      wallToward c7grid (Pos.mk 1 1) Key.left ≠ BLACK) ∧
    (inBoundsI 3 3 (targetOf (Pos.mk 1 1) Key.left) ∧
      wallToward c7grid (Pos.mk 1 1) Key.left ≠ BLACK →
      ((player_update c7grid 3 3 (Pos.mk 1 1) Key.left).row : Int) =
        (targetOf (Pos.mk 1 1) Key.left).1 ∧
      ((player_update c7grid 3 3 (Pos.mk 1 1) Key.left).col : Int) =
        (targetOf (Pos.mk 1 1) Key.left).2) :=
  claim_C7_move_legality c7grid 3 3 (Pos.mk 1 1) Key.left (by decide)

/-- C5 (amended): the `_add_edge`/`_break_border` pair performs no
adjacency check and raises no error.  On non-adjacent cells
`_break_border` silently leaves every cell unchanged while `_add_edge`
still records the connection in both lists; on adjacent cells the two
matching directional sides are opened and no other cell changes. -/
theorem claim_C5_connect (g : Grid) (a b : Pos) (c : Color) :
    (¬ Adj a b → break_border g a b c = g) ∧
    (Edge (add_edge g a b) a b ∧ Edge (add_edge g a b) b a) ∧
    (Adj a b →
      borderToward (break_border g a b c) a b = c ∧
      borderToward (break_border g a b c) b a = c ∧
      (∀ p, p ≠ a → p ≠ b → break_border g a b c p = g p)) := by
  refine ⟨fun h => break_border_not_adj h, add_edge_mem g a b, fun hadj => ?_⟩
  obtain ⟨e1, e2⟩ := borderToward_break_border_adj (g := g) (c := c) hadj
  refine ⟨e1, e2, ?_⟩
  rcases hadj with ⟨h1, h2 | h2⟩ | ⟨h1, h2 | h2⟩
  · exact (break_border_right h1 h2).2.2
  · exact (break_border_left h1 h2).2.2
  · exact (break_border_down h1 h2).2.2
  · exact (break_border_up h1 h2).2.2

set_option maxHeartbeats 1000000 in
/-- C5 counterexample: connecting the non-adjacent cells (0,0) and (0,2)
does not fail: no error value exists, no wall changes, and the edge is
still recorded — the claimed `InvalidEdge` failure does not happen. -/
theorem claim_C5_counterexample :
    ¬ Adj (Pos.mk 0 0) (Pos.mk 0 2) ∧
    Edge (add_edge (break_border (initGrid 1 3) (Pos.mk 0 0) (Pos.mk 0 2) GREEN)
      (Pos.mk 0 0) (Pos.mk 0 2)) (Pos.mk 0 0) (Pos.mk 0 2) ∧
    (add_edge (break_border (initGrid 1 3) (Pos.mk 0 0) (Pos.mk 0 2) GREEN)
      (Pos.mk 0 0) (Pos.mk 0 2) (Pos.mk 0 0)).right_border = BLACK ∧
    (add_edge (break_border (initGrid 1 3) (Pos.mk 0 0) (Pos.mk 0 2) GREEN)
      (Pos.mk 0 0) (Pos.mk 0 2) (Pos.mk 0 2)).left_border = BLACK := by decide

/-- C8: wall openness is symmetric across every adjacent pair after
generation and after solving, and every `_break_border` on an adjacent
pair opens exactly the two matching directional sides of the two involved
cells, leaving every other cell and every other directed side
unchanged. -/
theorem claim_C8_wall_symmetry (rand : Nat → Nat) (rows cols : Nat) (start goal : Pos)
    (fuel : Nat) (g : Grid) (a b : Pos) (c : Color) (hadj : Adj a b) :
    SymOpen (generate rand rows cols).grid ∧
    SymOpen (solve_with_bfs (generate rand rows cols).grid start goal fuel).1.grid ∧
    borderToward (break_border g a b c) a b = c ∧
    borderToward (break_border g a b c) b a = c ∧
    (∀ p, p ≠ a → p ≠ b → break_border g a b c p = g p) ∧
    (∀ x y, ¬(x = a ∧ y = b) → ¬(x = b ∧ y = a) →
      borderToward (break_border g a b c) x y = borderToward g x y) := by
  obtain ⟨e1, e2⟩ := borderToward_break_border_adj (g := g) (c := c) hadj
  refine ⟨symOpen_generate rand rows cols,
    symOpen_solve_with_bfs _ start goal fuel (symOpen_generate rand rows cols), e1, e2, ?_,
    fun x y h1 h2 => borderToward_break_border_frame hadj h1 h2⟩
  rcases hadj with ⟨h1, h2 | h2⟩ | ⟨h1, h2 | h2⟩
  · exact (break_border_right h1 h2).2.2
  · exact (break_border_left h1 h2).2.2
  · exact (break_border_down h1 h2).2.2
  · exact (break_border_up h1 h2).2.2

set_option maxHeartbeats 1000000 in
/-- Witness for C8 at a 1×2 grid and the adjacent pair (0,0)-(0,1). -/
theorem claim_C8_wall_symmetry_witness :
    SymOpen (generate (fun _ => 0) 1 2).grid ∧
    SymOpen (solve_with_bfs (generate (fun _ => 0) 1 2).grid (Pos.mk 0 0) (Pos.mk 0 0) 1).1.grid ∧
    borderToward (break_border (initGrid 1 2) (Pos.mk 0 0) (Pos.mk 0 1) GREEN)
      (Pos.mk 0 0) (Pos.mk 0 1) = GREEN ∧
    borderToward (break_border (initGrid 1 2) (Pos.mk 0 0) (Pos.mk 0 1) GREEN)
      (Pos.mk 0 1) (Pos.mk 0 0) = GREEN ∧
    (∀ p, p ≠ Pos.mk 0 0 → p ≠ Pos.mk 0 1 →
      break_border (initGrid 1 2) (Pos.mk 0 0) (Pos.mk 0 1) GREEN p = initGrid 1 2 p) ∧
    (∀ x y, ¬(x = Pos.mk 0 0 ∧ y = Pos.mk 0 1) → ¬(x = Pos.mk 0 1 ∧ y = Pos.mk 0 0) →
      borderToward (break_border (initGrid 1 2) (Pos.mk 0 0) (Pos.mk 0 1) GREEN) x y =
        borderToward (initGrid 1 2) x y) :=
  claim_C8_wall_symmetry (fun _ => 0) 1 2 (Pos.mk 0 0) (Pos.mk 0 0) 1 (initGrid 1 2)
    (Pos.mk 0 0) (Pos.mk 0 1) GREEN (by decide)

set_option maxHeartbeats 4000000 in
/-- C9 counterexample: after a full 1×3 generator run (constant-zero
random stream), cell (0,1)'s geometric neighbor list has lost its visited
entry (0,0): the construction-time adjacency is not preserved by a
generator run. -/
theorem claim_C9_counterexample :
    (initGrid 1 3 (Pos.mk 0 1)).neighbors = [Pos.mk 0 0, Pos.mk 0 2] ∧
    ((generate (fun _ => 0) 1 3).grid (Pos.mk 0 1)).neighbors = [Pos.mk 0 2] ∧
    ((generate (fun _ => 0) 1 3).grid (Pos.mk 0 1)).neighbors ≠
      (initGrid 1 3 (Pos.mk 0 1)).neighbors := by decide

/-- C9 (amended): geometric adjacency is computed once at Grid
construction, but `generate` destructively filters visited cells out of
the stored neighbor lists via `_remove_visited_neighbors`, so after a run
each cell's list is only a subset of its construction-time neighbors
(generally strict); the solver leaves neighbor lists unchanged. -/
theorem claim_C9_adjacency (rand : Nat → Nat) (rows cols : Nat) (start goal : Pos)
    (fuel : Nat) (g : Grid) (p : Pos) :
    (initGrid rows cols p).neighbors = geomNeighbors rows cols p ∧
    ((generate rand rows cols).grid p).neighbors ⊆ geomNeighbors rows cols p ∧
    ((solve_with_bfs g start goal fuel).1.grid p).neighbors = (g p).neighbors := by
  refine ⟨rfl, generate_neighbors_subset rand rows cols p, ?_⟩
  exact congrArg (fun t => t.1) (solve_with_bfs_genFields g start goal fuel p)

theorem head?_eq_headD {l : List Pos} (h : l ≠ []) (d : Pos) :
    l.head? = some (l.headD d) := by
  cases l
  · exact absurd rfl h
  · rfl

theorem choose_mem (rand : Nat → Nat) (t : Nat) {l : List Pos} (h : l ≠ []) :
    choose rand t l ∈ l := by
  unfold choose
  have hlen : rand t % l.length < l.length := Nat.mod_lt _ (List.length_pos.mpr h)
  rw [List.getD_eq_getElem?_getD, List.getElem?_eq_getElem hlen]
  exact List.getElem_mem hlen

theorem add_edge_conn {g : Grid} {a b : Pos} (hab : a ≠ b) :
    ((add_edge g a b) a).connected_neighbors = (g a).connected_neighbors ++ [b] ∧
    ((add_edge g a b) b).connected_neighbors = (g b).connected_neighbors ++ [a] ∧
    ∀ p, p ≠ a → p ≠ b →
      ((add_edge g a b) p).connected_neighbors = (g p).connected_neighbors := by
  have hε : add_edge g a b =
      ((g.modify a (fun n => { n with connected_neighbors := n.connected_neighbors ++ [b] })).modify
        b (fun n => { n with connected_neighbors := n.connected_neighbors ++ [a] })) := rfl
  refine ⟨?_, ?_, ?_⟩
  · rw [hε, Grid.modify_other _ _ _ _ hab, Grid.modify_same]
  · rw [hε, Grid.modify_same, Grid.modify_other _ _ _ _ (fun he => hab he.symm)]
  · intro p h1 h2
    rw [hε, Grid.modify_other _ _ _ _ h2, Grid.modify_other _ _ _ _ h1]

theorem edge_add_edge {g : Grid} {a b : Pos} (hab : a ≠ b) (p q : Pos) :
    Edge (add_edge g a b) p q ↔ (Edge g p q ∨ (p = a ∧ q = b) ∨ (p = b ∧ q = a)) := by
  obtain ⟨h1, h2, h3⟩ := add_edge_conn (g := g) hab
  unfold Edge
  by_cases hpa : p = a
  · subst hpa
    rw [h1, List.mem_append, List.mem_singleton]
    constructor
    · rintro (h | h)
      · exact Or.inl h
      · exact Or.inr (Or.inl ⟨rfl, h⟩)
    · rintro (h | ⟨_, rfl⟩ | ⟨he, _⟩)
      · exact Or.inl h
      · exact Or.inr rfl
      · exact absurd he hab
  · by_cases hpb : p = b
    · subst hpb
      rw [h2, List.mem_append, List.mem_singleton]
      constructor
      · rintro (h | h)
        · exact Or.inl h
        · exact Or.inr (Or.inr ⟨rfl, h⟩)
      · rintro (h | ⟨he, _⟩ | ⟨_, rfl⟩)
        · exact Or.inl h
        · exact absurd he hpa
        · exact Or.inr rfl
    · rw [h3 p hpa hpb]
      constructor
      · exact fun h => Or.inl h
      · rintro (h | ⟨he, _⟩ | ⟨he, _⟩)
        · exact h
        · exact absurd he hpa
        · exact absurd he hpb

theorem rvn_fields (g : Grid) (cur : Pos) :
    ((remove_visited_neighbors g cur) cur).neighbors =
      (g cur).neighbors.filter (fun q => !(g q).visited) ∧
    (∀ p, p ≠ cur → (remove_visited_neighbors g cur) p = g p) ∧
    (∀ p, ((remove_visited_neighbors g cur) p).connected_neighbors =
      (g p).connected_neighbors) ∧
    (∀ p, ((remove_visited_neighbors g cur) p).visited = (g p).visited) := by
  unfold remove_visited_neighbors
  refine ⟨by rw [Grid.modify_same], fun p hp => Grid.modify_other _ _ _ _ hp, ?_, ?_⟩
  · intro p
    exact modify_field_eq (fun n => n.connected_neighbors)
      (f := fun n => { n with neighbors := n.neighbors.filter (fun q => !(g q).visited) })
      (fun n => rfl) p
  · intro p
    exact modify_field_eq (fun n => n.visited)
      (f := fun n => { n with neighbors := n.neighbors.filter (fun q => !(g q).visited) })
      (fun n => rfl) p

theorem break_border_genFields (g : Grid) (a b : Pos) (c : Color) (p : Pos) :
    genFields ((break_border g a b c) p) = genFields (g p) :=
  break_border_field (F := genFields) (fun n x => rfl) (fun n x => rfl) (fun n x => rfl)
    (fun n x => rfl) g a b c p

theorem markVisited_fields (g : Grid) (nb : Pos) :
    ((g.modify nb markVisited) nb).visited = true ∧
    (∀ p, p ≠ nb → (g.modify nb markVisited) p = g p) ∧
    (∀ p, ((g.modify nb markVisited) p).neighbors = (g p).neighbors) ∧
    (∀ p, ((g.modify nb markVisited) p).connected_neighbors = (g p).connected_neighbors) := by
  refine ⟨by rw [Grid.modify_same]; rfl, fun p hp => Grid.modify_other _ _ _ _ hp, ?_, ?_⟩
  · intro p
    exact modify_field_eq (fun n => n.neighbors) (f := markVisited) (fun n => rfl) p
  · intro p
    exact modify_field_eq (fun n => n.connected_neighbors) (f := markVisited) (fun n => rfl) p

theorem edge_congr {g g' : Grid}
    (h : ∀ p, (g' p).connected_neighbors = (g p).connected_neighbors) (p q : Pos) :
    Edge g' p q ↔ Edge g p q := by
  unfold Edge
  rw [h p]

theorem reach_congr {g g' : Grid}
    (h : ∀ p, (g' p).connected_neighbors = (g p).connected_neighbors) (a b : Pos) :
    Reach g' a b ↔ Reach g a b :=
  ⟨Reach.mono (fun p q hn => (edge_congr h p q).mp hn),
   Reach.mono (fun p q hn => (edge_congr h p q).mpr hn)⟩

theorem nodup_append_singleton {l : List Pos} {a : Pos} (hn : l.Nodup) (ha : a ∉ l) :
    (l ++ [a]).Nodup := by
  rw [List.nodup_append]
  exact ⟨hn, List.nodup_singleton a, by simpa using ha⟩

/-- The loop invariant of `Maze.generate`, relative to the initial random
cell `root`: the observation log lists each visited cell exactly once,
`visited_count` counts them, connectivity is a symmetric duplicate-free
relation with `visited_count - 1` edges joining only visited in-bounds
cells, every visited cell is connected to the root, stored neighbor lists
sit between the unvisited geometric neighbors and all geometric
neighbors, the stack holds visited cells with `current` on top, and every
visited cell off the stack has all its geometric neighbors visited. -/
structure GInv (rows cols : Nat) (root : Pos) (s : GenState) : Prop where
  log_nodup : s.log.Nodup
  log_visited : ∀ p, p ∈ s.log ↔ (s.grid p).visited = true
  visited_inb : ∀ p, (s.grid p).visited = true → InBounds rows cols p
  count_eq : s.visitedCount = s.log.length
  deg : degSum rows cols s.grid + 2 = 2 * s.visitedCount
  edge_sym : ∀ p q, Edge s.grid p q ↔ Edge s.grid q p
  conn_nodup : ∀ p, (s.grid p).connected_neighbors.Nodup
  conn_irrefl : ∀ p, ¬ Edge s.grid p p
  unvisited_conn : ∀ p, (s.grid p).visited = false → (s.grid p).connected_neighbors = []
  reach_root : ∀ p, (s.grid p).visited = true → Reach s.grid root p
  nbrs_sub : ∀ p, (s.grid p).neighbors ⊆ geomNeighbors rows cols p
  nbrs_sup : ∀ p q, q ∈ geomNeighbors rows cols p → (s.grid q).visited = false →
    q ∈ (s.grid p).neighbors
  stack_visited : ∀ p, p ∈ s.stack → (s.grid p).visited = true
  stack_head : s.stack ≠ [] → s.stack.head? = some s.current
  current_visited : (s.grid s.current).visited = true
  closed : ∀ p, (s.grid p).visited = true → p ∉ s.stack →
    ∀ q, q ∈ geomNeighbors rows cols p → (s.grid q).visited = true

theorem ginv_step {rows cols : Nat} {root : Pos} (rand : Nat → Nat) {s : GenState}
    (inv : GInv rows cols root s) (hstk : s.stack ≠ []) :
    GInv rows cols root (generateStep rand s) := by
  obtain ⟨log_nodup, log_visited, visited_inb, count_eq, deg, edge_sym, conn_nodup,
    conn_irrefl, unvisited_conn, reach_root, nbrs_sub, nbrs_sup, stack_visited,
    stack_head, current_visited, closed⟩ := inv
  obtain ⟨hg1cur, hg1other, hg1conn, hg1vis⟩ := rvn_fields s.grid s.current
  unfold generateStep genStepGo
  set g1 := remove_visited_neighbors s.grid s.current with hg1def
  have hg1nbrs : ∀ p, (g1 p).neighbors ⊆ (s.grid p).neighbors := by
    intro p
    by_cases hp : p = s.current
    · subst hp
      rw [hg1cur]
      exact fun x hx => List.mem_of_mem_filter hx
    · rw [hg1other p hp]
      exact fun x hx => hx
  by_cases hnb : (g1 s.current).neighbors = []
  · rw [if_pos hnb]
    obtain ⟨t, hst⟩ : ∃ t, s.stack = s.current :: t := by
      have hh := stack_head hstk
      cases hs : s.stack with
      | nil => exact absurd hs hstk
      | cons x t =>
        rw [hs] at hh
        injection hh with hx
        exact ⟨t, by rw [hx]⟩
    have hvis2 : ∀ p, ((g1.modify s.current backtrackRecolor) p).visited = (s.grid p).visited := by
      intro p
      rw [modify_field_eq (fun n => n.visited) (f := backtrackRecolor) (fun n => rfl) p]
      exact hg1vis p
    have hconn2 : ∀ p, ((g1.modify s.current backtrackRecolor) p).connected_neighbors =
        (s.grid p).connected_neighbors := by
      intro p
      rw [modify_field_eq (fun n => n.connected_neighbors) (f := backtrackRecolor)
        (fun n => rfl) p]
      exact hg1conn p
    have hnbrs2 : ∀ p, ((g1.modify s.current backtrackRecolor) p).neighbors =
        (g1 p).neighbors :=
      fun p => modify_field_eq (fun n => n.neighbors) (f := backtrackRecolor) (fun n => rfl) p
    have hcur_nbrs_closed : ∀ q, q ∈ geomNeighbors rows cols s.current →
        (s.grid q).visited = true := by
      intro q hq
      by_contra hcon
      have hqv : (s.grid q).visited = false := by
        cases hv : (s.grid q).visited
        · rfl
        · exact absurd hv hcon
      have hmem : q ∈ (g1 s.current).neighbors := by
        rw [hg1cur]
        exact List.mem_filter.mpr ⟨nbrs_sup _ _ hq hqv, by rw [hqv]; rfl⟩
      rw [hnb] at hmem
      cases hmem
    refine ⟨log_nodup, ?_, ?_, count_eq, ?_, ?_, ?_, ?_, ?_, ?_, ?_, ?_, ?_, ?_, ?_, ?_⟩
    · intro p
      show p ∈ s.log ↔ _
      rw [hvis2 p]
      exact log_visited p
    · intro p hp
      rw [hvis2 p] at hp
      exact visited_inb p hp
    · show degSum rows cols (g1.modify s.current backtrackRecolor) + 2 = 2 * s.visitedCount
      have hd : degSum rows cols (g1.modify s.current backtrackRecolor) =
          degSum rows cols s.grid := degSum_congr (fun p => by rw [hconn2 p])
      rw [hd]
      exact deg
    · intro p q
      rw [edge_congr hconn2, edge_congr hconn2]
      exact edge_sym p q
    · intro p
      rw [hconn2 p]
      exact conn_nodup p
    · intro p
      rw [edge_congr hconn2]
      exact conn_irrefl p
    · intro p hp
      rw [hvis2 p] at hp
      rw [hconn2 p]
      exact unvisited_conn p hp
    · intro p hp
      rw [hvis2 p] at hp
      exact (reach_congr hconn2 root p).mpr (reach_root p hp)
    · intro p
      rw [hnbrs2 p]
      exact fun x hx => nbrs_sub p (hg1nbrs p hx)
    · intro p q hq hqv
      rw [hvis2 q] at hqv
      rw [hnbrs2 p]
      by_cases hp : p = s.current
      · subst hp
        exact absurd (hcur_nbrs_closed q hq) (by rw [hqv]; exact fun h => nomatch h)
      · rw [hg1other p hp]
        exact nbrs_sup p q hq hqv
    · intro p hp
      show (_ : Node).visited = true
      rw [hvis2 p]
      refine stack_visited p ?_
      rw [hst]
      exact List.mem_cons_of_mem _ (by rwa [hst] at hp)
    · intro h
      show List.head? s.stack.tail = some (s.stack.tail.headD s.current)
      exact head?_eq_headD h _
    · show (_ : Node).visited = true
      rw [hvis2]
      rcases hte : s.stack.tail with _ | ⟨x, t2⟩
      · exact current_visited
      · show (s.grid ((x :: t2).headD s.current)).visited = true
        refine stack_visited x ?_
        have ht2 : t = x :: t2 := by
          rw [hst] at hte
          simpa using hte
        rw [hst, ht2]
        exact List.mem_cons_of_mem _ (List.mem_cons_self x t2)
    · intro p hp hpstk q hq
      rw [hvis2 p] at hp
      rw [hvis2 q]
      by_cases hpc : p = s.current
      · subst hpc
        exact hcur_nbrs_closed q hq
      · refine closed p hp ?_ q hq
        rw [hst]
        intro hcon
        rcases List.mem_cons.mp hcon with he | ht
        · exact hpc he
        · refine hpstk ?_
          rw [hst] at hpstk ⊢
          exact ht
  · rw [if_neg hnb]
    dsimp only
    set nb := choose rand s.t ((g1 s.current).neighbors) with hnbdef
    have hmem1 : nb ∈ (g1 s.current).neighbors := choose_mem rand s.t hnb
    have hmemf : nb ∈ (s.grid s.current).neighbors.filter (fun q => !(s.grid q).visited) := by
      rwa [hg1cur] at hmem1
    have hnb_unvis : (s.grid nb).visited = false := by
      have := (List.mem_filter.mp hmemf).2
      simpa using this
    have hmem_old : nb ∈ (s.grid s.current).neighbors := (List.mem_filter.mp hmemf).1
    have hgeom : nb ∈ geomNeighbors rows cols s.current := nbrs_sub _ hmem_old
    have hne : nb ≠ s.current := geomNeighbors_ne hgeom
    have hcur_ne : s.current ≠ nb := fun he => hne he.symm
    have hcur_inb : InBounds rows cols s.current := visited_inb _ current_visited
    have hnb_inb : InBounds rows cols nb := geomNeighbors_inBounds hcur_inb hgeom
    have hnb_log : nb ∉ s.log := by
      intro h
      rw [log_visited nb, hnb_unvis] at h
      cases h
    set g2 := break_border g1 s.current nb GREEN with hg2def
    set g3 := add_edge g2 s.current nb with hg3def
    set g4 := g3.modify nb markVisited with hg4def
    have hbbf : ∀ p, genFields (g2 p) = genFields (g1 p) := by
      intro p
      rw [hg2def]
      exact break_border_genFields g1 s.current nb GREEN p
    have hg2nbrs : ∀ p, (g2 p).neighbors = (g1 p).neighbors :=
      fun p => congrArg (fun t => t.1) (hbbf p)
    have hg2conn : ∀ p, (g2 p).connected_neighbors = (s.grid p).connected_neighbors := by
      intro p
      have h2 : (g2 p).connected_neighbors = (g1 p).connected_neighbors :=
        congrArg (fun t => t.2.1) (hbbf p)
      rw [h2]
      exact hg1conn p
    have hg2vis : ∀ p, (g2 p).visited = (s.grid p).visited := by
      intro p
      have h2 : (g2 p).visited = (g1 p).visited :=
        congrArg (fun t => t.2.2) (hbbf p)
      rw [h2]
      exact hg1vis p
    obtain ⟨hae1, hae2, hae3⟩ := add_edge_conn (g := g2) hcur_ne
    obtain ⟨hmk1, hmk2, hmk3, hmk4⟩ := markVisited_fields g3 nb
    have hg3vis : ∀ p, (g3 p).visited = (s.grid p).visited := by
      intro p
      rw [add_edge_field (F := fun n => n.visited) (fun n l => rfl) g2 s.current nb p]
      exact hg2vis p
    have hg3nbrs : ∀ p, (g3 p).neighbors = (g1 p).neighbors := by
      intro p
      rw [add_edge_field (F := fun n => n.neighbors) (fun n l => rfl) g2 s.current nb p]
      exact hg2nbrs p
    have hvis4 : ∀ p, p ≠ nb → (g4 p).visited = (s.grid p).visited := by
      intro p hp
      rw [hg4def, hmk2 p hp]
      exact hg3vis p
    have hvis4nb : (g4 nb).visited = true := hmk1
    have hvis4mono : ∀ p, (s.grid p).visited = true → (g4 p).visited = true := by
      intro p hp
      by_cases hpn : p = nb
      · subst hpn; exact hvis4nb
      · rw [hvis4 p hpn]; exact hp
    have hnbrs4 : ∀ p, (g4 p).neighbors = (g1 p).neighbors := by
      intro p
      rw [hg4def, hmk3 p]
      exact hg3nbrs p
    have hconn4cur : (g4 s.current).connected_neighbors =
        (s.grid s.current).connected_neighbors ++ [nb] := by
      rw [hg4def, hmk4 s.current, hg3def, hae1, hg2conn]
    have hconn4nb : (g4 nb).connected_neighbors =
        (s.grid nb).connected_neighbors ++ [s.current] := by
      rw [hg4def, hmk4 nb, hg3def, hae2, hg2conn]
    have hconn4other : ∀ p, p ≠ s.current → p ≠ nb →
        (g4 p).connected_neighbors = (s.grid p).connected_neighbors := by
      intro p h1 h2
      rw [hg4def, hmk4 p, hg3def, hae3 p h1 h2, hg2conn]
    have hedge4 : ∀ p q, Edge g4 p q ↔
        (Edge s.grid p q ∨ (p = s.current ∧ q = nb) ∨ (p = nb ∧ q = s.current)) := by
      intro p q
      have he1 : Edge g4 p q ↔ Edge g3 p q := edge_congr (fun x => by rw [hg4def, hmk4 x]) p q
      rw [he1, hg3def, edge_add_edge hcur_ne, edge_congr hg2conn]
    have hedge_mono : ∀ p q, Edge s.grid p q → Edge g4 p q :=
      fun p q h => (hedge4 p q).mpr (Or.inl h)
    refine ⟨?_, ?_, ?_, ?_, ?_, ?_, ?_, ?_, ?_, ?_, ?_, ?_, ?_, ?_, ?_, ?_⟩
    · exact nodup_append_singleton log_nodup hnb_log
    · intro p
      show p ∈ s.log ++ [nb] ↔ (g4 p).visited = true
      rw [List.mem_append, List.mem_singleton]
      by_cases hpn : p = nb
      · subst hpn
        simp [hvis4nb]
      · rw [hvis4 p hpn, ← log_visited p]
        simp [hpn]
    · intro p hp
      by_cases hpn : p = nb
      · subst hpn; exact hnb_inb
      · rw [hvis4 p hpn] at hp
        exact visited_inb p hp
    · show s.visitedCount + 1 = (s.log ++ [nb]).length
      rw [List.length_append, List.length_singleton, count_eq]
    · show degSum rows cols g4 + 2 = 2 * (s.visitedCount + 1)
      have hd4 : degSum rows cols g4 = degSum rows cols g3 :=
        degSum_congr (fun p => by rw [hg4def, hmk4 p])
      have hd3 : degSum rows cols g3 = degSum rows cols g2 + 2 := by
        rw [hg3def]
        exact degSum_add_edge hcur_inb hnb_inb
      have hd2 : degSum rows cols g2 = degSum rows cols s.grid :=
        degSum_congr (fun p => by rw [hg2conn p])
      omega
    · intro p q
      rw [hedge4 p q, hedge4 q p]
      constructor
      · rintro (h | ⟨h1, h2⟩ | ⟨h1, h2⟩)
        · exact Or.inl ((edge_sym p q).mp h)
        · exact Or.inr (Or.inr ⟨h2, h1⟩)
        · exact Or.inr (Or.inl ⟨h2, h1⟩)
      · rintro (h | ⟨h1, h2⟩ | ⟨h1, h2⟩)
        · exact Or.inl ((edge_sym q p).mp h)
        · exact Or.inr (Or.inr ⟨h2, h1⟩)
        · exact Or.inr (Or.inl ⟨h2, h1⟩)
    · intro p
      by_cases h1 : p = s.current
      · subst h1
        rw [hconn4cur]
        refine nodup_append_singleton (conn_nodup _) ?_
        intro hmem
        have : Edge s.grid nb s.current := (edge_sym _ _).mp hmem
        rw [Edge, unvisited_conn nb hnb_unvis] at this
        cases this
      · by_cases h2 : p = nb
        · subst h2
          rw [hconn4nb, unvisited_conn nb hnb_unvis]
          exact List.nodup_singleton _
        · rw [hconn4other p h1 h2]
          exact conn_nodup p
    · intro p hcon
      rcases (hedge4 p p).mp hcon with h | ⟨h1, h2⟩ | ⟨h1, h2⟩
      · exact conn_irrefl p h
      · exact hne (h2.symm.trans h1)
      · exact hne (h1.symm.trans h2)
    · intro p hp
      by_cases hpn : p = nb
      · subst hpn
        rw [hvis4nb] at hp
        cases hp
      · rw [hvis4 p hpn] at hp
        have hpc : p ≠ s.current := by
          intro he
          rw [he, current_visited] at hp
          cases hp
        rw [hconn4other p hpc hpn]
        exact unvisited_conn p hp
    · intro p hp
      by_cases hpn : p = nb
      · subst hpn
        have hrc : Reach g4 root s.current :=
          (reach_root _ current_visited).mono hedge_mono
        obtain ⟨m, hw⟩ := hrc
        exact ⟨m + 1, hw.snoc ((hedge4 _ _).mpr (Or.inr (Or.inl ⟨rfl, rfl⟩)))⟩
      · rw [hvis4 p hpn] at hp
        exact (reach_root p hp).mono hedge_mono
    · intro p
      rw [hnbrs4 p]
      exact fun x hx => nbrs_sub p (hg1nbrs p hx)
    · intro p q hq hqv
      have hqn : q ≠ nb := by
        intro he
        rw [he, hvis4nb] at hqv
        cases hqv
      rw [hvis4 q hqn] at hqv
      rw [hnbrs4 p]
      by_cases hp : p = s.current
      · subst hp
        rw [hg1cur]
        exact List.mem_filter.mpr ⟨nbrs_sup _ _ hq hqv, by rw [hqv]; rfl⟩
      · rw [hg1other p hp]
        exact nbrs_sup p q hq hqv
    · intro p hp
      rcases List.mem_cons.mp hp with he | ht
      · rw [he]
        exact hvis4nb
      · exact hvis4mono p (stack_visited p ht)
    · intro _
      rfl
    · exact hvis4nb
    · intro p hp hpstk q hq
      have hpn : p ≠ nb := by
        intro he
        exact hpstk (he ▸ List.mem_cons_self _ _)
      rw [hvis4 p hpn] at hp
      have hpstk' : p ∉ s.stack := fun h => hpstk (List.mem_cons_of_mem _ h)
      exact hvis4mono q (closed p hp hpstk' q hq)

theorem ginv_init (rand : Nat → Nat) (rows cols : Nat) (hr : 0 < rows) (hc : 0 < cols) :
    GInv rows cols (Pos.mk (rand 0 % rows) (rand 1 % cols)) (genInit rand rows cols) := by
  set p0 := Pos.mk (rand 0 % rows) (rand 1 % cols) with hp0
  have hp0in : InBounds rows cols p0 := ⟨Nat.mod_lt _ hr, Nat.mod_lt _ hc⟩
  unfold genInit
  set G0 := (initGrid rows cols).modify p0 markVisited with hG0
  have hv : ∀ p, (G0 p).visited = true ↔ p = p0 := by
    intro p
    by_cases hp : p = p0
    · subst hp
      rw [hG0, Grid.modify_same]
      exact ⟨fun _ => rfl, fun _ => rfl⟩
    · rw [hG0, Grid.modify_other _ _ _ _ hp]
      have hfalse : (initGrid rows cols p).visited = false := rfl
      constructor
      · intro h
        rw [hfalse] at h
        cases h
      · intro h
        exact absurd h hp
  have hcn : ∀ p, (G0 p).connected_neighbors = [] := by
    intro p
    by_cases hp : p = p0
    · subst hp
      rw [hG0, Grid.modify_same]
      rfl
    · rw [hG0, Grid.modify_other _ _ _ _ hp]
      rfl
  have hn : ∀ p, (G0 p).neighbors = geomNeighbors rows cols p := by
    intro p
    by_cases hp : p = p0
    · subst hp
      rw [hG0, Grid.modify_same]
      rfl
    · rw [hG0, Grid.modify_other _ _ _ _ hp]
      rfl
  have hdeg : degSum rows cols G0 = 0 := by
    refine List.sum_eq_zero ?_
    intro x hx
    simp only [List.mem_map] at hx
    obtain ⟨p, _, rfl⟩ := hx
    rw [hcn p]
    rfl
  refine ⟨List.nodup_singleton p0, ?_, ?_, rfl, ?_, ?_, ?_, ?_, ?_, ?_, ?_, ?_, ?_, ?_, ?_, ?_⟩
  · intro p
    rw [List.mem_singleton, hv p]
  · intro p hp
    rw [hv p] at hp
    rw [hp]
    exact hp0in
  · rw [hdeg]
    rfl
  · intro p q
    unfold Edge
    rw [hcn p, hcn q]
    simp
  · intro p
    rw [hcn p]
    exact List.nodup_nil
  · intro p hcon
    rw [Edge, hcn p] at hcon
    cases hcon
  · intro p _
    exact hcn p
  · intro p hp
    rw [hv p] at hp
    rw [hp]
    exact ⟨0, WalkLen.refl⟩
  · intro p
    rw [hn p]
    exact fun x hx => hx
  · intro p q hq _
    rw [hn p]
    exact hq
  · intro p hp
    rw [List.mem_singleton] at hp
    rw [hv p]
    exact hp
  · intro _
    rfl
  · rw [hv p0]
  · intro p hp hpstk q _
    rw [hv p] at hp
    exact absurd (by rw [hp]; exact List.mem_singleton_self p0) hpstk

/-- Loop measure of `generate`: strictly decreases on every iteration. -/
def genMeasure (total : Nat) (s : GenState) : Nat :=
  2 * (total - s.visitedCount) + s.stack.length

theorem genMeasure_step (rand : Nat → Nat) {total : Nat} {s : GenState}
    (h : s.visitedCount < total ∧ s.stack ≠ []) :
    genMeasure total (generateStep rand s) < genMeasure total s := by
  obtain ⟨h1, h2⟩ := h
  have hlen : s.stack.length ≠ 0 := fun hl => h2 (List.length_eq_zero.mp hl)
  unfold generateStep genStepGo genMeasure
  by_cases hnb : ((remove_visited_neighbors s.grid s.current) s.current).neighbors = []
  · rw [if_pos hnb]
    dsimp only
    rw [List.length_tail]
    omega
  · rw [if_neg hnb]
    dsimp only
    rw [List.length_cons]
    omega

theorem generateLoop_spec (rand : Nat → Nat) (total rows cols : Nat) (root : Pos) :
    ∀ (fuel : Nat) (s : GenState), GInv rows cols root s → genMeasure total s ≤ fuel →
      GInv rows cols root (generateLoop rand total fuel s) ∧
      ¬((generateLoop rand total fuel s).visitedCount < total ∧
        (generateLoop rand total fuel s).stack ≠ []) := by
  intro fuel
  induction fuel with
  | zero =>
    intro s hinv hm
    unfold generateLoop
    refine ⟨hinv, ?_⟩
    rintro ⟨hlt, hne⟩
    unfold genMeasure at hm
    have hl0 : s.stack.length = 0 := by omega
    exact hne (List.length_eq_zero.mp hl0)
  | succ fuel ih =>
    intro s hinv hm
    unfold generateLoop
    by_cases hc : s.visitedCount < total ∧ s.stack ≠ []
    · rw [if_pos hc]
      refine ih _ (ginv_step rand hinv hc.2) ?_
      have := genMeasure_step rand hc
      omega
    · rw [if_neg hc]
      exact ⟨hinv, hc⟩

theorem nodup_length_le {l l' : List Pos} (hn : l.Nodup) (hsub : ∀ x ∈ l, x ∈ l') :
    l.length ≤ l'.length := by
  calc l.length = l.toFinset.card := (List.toFinset_card_of_nodup hn).symm
    _ ≤ l'.toFinset.card := Finset.card_le_card
        (fun x hx => List.mem_toFinset.mpr (hsub x (List.mem_toFinset.mp hx)))
    _ ≤ l'.length := l'.toFinset_card_le

theorem nodup_cover {l l' : List Pos} (hn : l.Nodup) (hn' : l'.Nodup)
    (hsub : ∀ x ∈ l, x ∈ l') (hlen : l'.length ≤ l.length) : ∀ x ∈ l', x ∈ l := by
  have hss : l.toFinset ⊆ l'.toFinset :=
    fun x hx => List.mem_toFinset.mpr (hsub x (List.mem_toFinset.mp hx))
  have hcard : l'.toFinset.card ≤ l.toFinset.card := by
    rw [List.toFinset_card_of_nodup hn, List.toFinset_card_of_nodup hn']
    exact hlen
  have heq := Finset.eq_of_subset_of_card_le hss hcard
  intro x hx
  exact List.mem_toFinset.mp (heq ▸ List.mem_toFinset.mpr hx)

theorem generate_ginv (rand : Nat → Nat) (rows cols : Nat) (h1 : 1 ≤ rows * cols) :
    GInv rows cols (Pos.mk (rand 0 % rows) (rand 1 % cols)) (generate rand rows cols) ∧
    ¬((generate rand rows cols).visitedCount < rows * cols ∧
      (generate rand rows cols).stack ≠ []) := by
  have hr : 0 < rows := by
    rcases Nat.eq_zero_or_pos rows with h | h
    · rw [h] at h1
      simp at h1
    · exact h
  have hc : 0 < cols := by
    rcases Nat.eq_zero_or_pos cols with h | h
    · rw [h, Nat.mul_zero] at h1
      simp at h1
    · exact h
  refine generateLoop_spec rand (rows * cols) rows cols _ _ _
    (ginv_init rand rows cols hr hc) ?_
  show genMeasure (rows * cols) (genInit rand rows cols) ≤ 2 * (rows * cols)
  unfold genMeasure genInit
  dsimp only
  simp only [List.length_cons, List.length_nil]
  omega

theorem generate_complete (rand : Nat → Nat) (rows cols : Nat) (h1 : 1 ≤ rows * cols) :
    (∀ p, InBounds rows cols p → ((generate rand rows cols).grid p).visited = true) ∧
    (generate rand rows cols).visitedCount = rows * cols := by
  obtain ⟨inv, hterm⟩ := generate_ginv rand rows cols h1
  have hsub_log : ∀ x ∈ (generate rand rows cols).log, x ∈ positions rows cols :=
    fun x hx => mem_positions.mpr (inv.visited_inb x ((inv.log_visited x).mp hx))
  by_cases hv : (generate rand rows cols).visitedCount < rows * cols
  · exfalso
    have hst : (generate rand rows cols).stack = [] := by
      by_contra hne
      exact hterm ⟨hv, hne⟩
    have hall : ∀ q, InBounds rows cols q →
        ((generate rand rows cols).grid q).visited = true := by
      intro q hq
      refine geom_closed_all (fun x => ((generate rand rows cols).grid x).visited = true)
        inv.visited_inb ?_ _ (generate rand rows cols).current q rfl inv.current_visited hq
      intro p hp x hx
      exact inv.closed p hp (by rw [hst]; exact List.not_mem_nil p) x hx
    have hsub_pos : ∀ x ∈ positions rows cols, x ∈ (generate rand rows cols).log :=
      fun x hx => (inv.log_visited x).mpr (hall x (mem_positions.mp hx))
    have hlen := nodup_length_le (positions_nodup rows cols) hsub_pos
    rw [positions_length] at hlen
    have hce := inv.count_eq
    omega
  · push_neg at hv
    have hle := nodup_length_le inv.log_nodup hsub_log
    rw [positions_length] at hle
    have hce := inv.count_eq
    have hvc : (generate rand rows cols).visitedCount = rows * cols := by omega
    refine ⟨?_, hvc⟩
    intro p hp
    have hcover := nodup_cover inv.log_nodup (positions_nodup rows cols) hsub_log
      (by rw [positions_length]; omega)
    exact (inv.log_visited p).mp (hcover p (mem_positions.mpr hp))

/-- C1: for every grid size with at least one cell and every random
stream, after `Maze.generate` runs to completion the connectivity
relation is symmetric, duplicate-free and irreflexive with total degree
`2 * (R*C - 1)` — exactly `R*C - 1` undirected edges; every in-bounds
cell is marked visited, each exactly once (the visit log is
duplicate-free and enumerates exactly the in-bounds cells); and every
cell is reachable from every other cell through connectivity edges: the
graph is a spanning tree of the grid. -/
theorem claim_C1_spanning_tree (rand : Nat → Nat) (rows cols : Nat) (h1 : 1 ≤ rows * cols) :
    degSum rows cols (generate rand rows cols).grid = 2 * (rows * cols - 1) ∧
    (∀ p q, Edge (generate rand rows cols).grid p q ↔ Edge (generate rand rows cols).grid q p) ∧
    (∀ p, ((generate rand rows cols).grid p).connected_neighbors.Nodup) ∧
    (∀ p, ¬ Edge (generate rand rows cols).grid p p) ∧
    (generate rand rows cols).log.Nodup ∧
    (∀ p, p ∈ (generate rand rows cols).log ↔ InBounds rows cols p) ∧
    (generate rand rows cols).visitedCount = rows * cols ∧
    (∀ p, InBounds rows cols p → ((generate rand rows cols).grid p).visited = true) ∧
    (∀ p q, InBounds rows cols p → InBounds rows cols q →
      Reach (generate rand rows cols).grid p q) := by
  obtain ⟨inv, _⟩ := generate_ginv rand rows cols h1
  obtain ⟨hall, hvc⟩ := generate_complete rand rows cols h1
  have hdeg := inv.deg
  refine ⟨by omega, inv.edge_sym, inv.conn_nodup, inv.conn_irrefl, inv.log_nodup, ?_, hvc,
    hall, ?_⟩
  · intro p
    constructor
    · intro hp
      exact inv.visited_inb p ((inv.log_visited p).mp hp)
    · intro hp
      exact (inv.log_visited p).mpr (hall p hp)
  · intro p q hp hq
    have h1r := inv.reach_root p (hall p hp)
    have h2r := inv.reach_root q (hall q hq)
    have hsym : ∀ x y, Edge (generate rand rows cols).grid x y →
        Edge (generate rand rows cols).grid y x :=
      fun x y h => (inv.edge_sym x y).mp h
    exact (reach_symm hsym h1r).trans h2r

set_option maxHeartbeats 16000000 in
/-- Witness for C1 on the 2×2 grid with the constant-zero random stream. -/
theorem claim_C1_spanning_tree_witness :
    degSum 2 2 (generate (fun _ => 0) 2 2).grid = 2 * (2 * 2 - 1) ∧
    (∀ p q, Edge (generate (fun _ => 0) 2 2).grid p q ↔ Edge (generate (fun _ => 0) 2 2).grid q p) ∧
    (∀ p, ((generate (fun _ => 0) 2 2).grid p).connected_neighbors.Nodup) ∧
    (∀ p, ¬ Edge (generate (fun _ => 0) 2 2).grid p p) ∧
    (generate (fun _ => 0) 2 2).log.Nodup ∧
    (∀ p, p ∈ (generate (fun _ => 0) 2 2).log ↔ InBounds 2 2 p) ∧
    (generate (fun _ => 0) 2 2).visitedCount = 2 * 2 ∧
    (∀ p, InBounds 2 2 p → ((generate (fun _ => 0) 2 2).grid p).visited = true) ∧
    (∀ p q, InBounds 2 2 p → InBounds 2 2 q → Reach (generate (fun _ => 0) 2 2).grid p q) :=
  claim_C1_spanning_tree (fun _ => 0) 2 2 (by decide)

/-- All transient solve state is clear: no cell is explored and no cell
has a parent. -/
def Clean (g : Grid) : Prop :=
  ∀ p, (g p).explored = false ∧ (g p).parent = none

/-- The path recovered by following `parent` links from `p` back to the
root, root first. -/
def parentChain (g : Grid) : Nat → Pos → List Pos
  | 0, p => [p]
  | f + 1, p =>
    match (g p).parent with
    | none => [p]
    | some q => parentChain g f q ++ [p]

theorem parentChain_congr {g g' : Grid} (h : ∀ p, (g' p).parent = (g p).parent) :
    ∀ (f : Nat) (p : Pos), parentChain g' f p = parentChain g f p := by
  intro f
  induction f with
  | zero => intro p; rfl
  | succ f ih =>
    intro p
    unfold parentChain
    rw [h p]
    cases hq : (g p).parent with
    | none => rfl
    | some q =>
      dsimp only
      rw [ih q]

theorem pos_coord_eq {a b : Pos} : (a.row = b.row ∧ a.col = b.col) ↔ a = b := by
  constructor
  · rintro ⟨h1, h2⟩
    exact Pos.ext_rc h1 h2
  · rintro rfl
    exact ⟨rfl, rfl⟩

/-- If a walk ends at an unexplored cell but starts at an explored one,
some explored cell on it has an unexplored neighbor, reachable by a
strictly shorter walk. -/
theorem first_unexplored {G g : Grid} {start : Pos} (hstart : (g start).explored = true) :
    ∀ {w : Pos} {m : Nat}, WalkLen G start w m → (g w).explored = false →
      ∃ v x j, (g v).explored = true ∧ (g x).explored = false ∧ Edge G v x ∧
        WalkLen G start v j ∧ j < m := by
  intro w m hw
  induction hw with
  | refl =>
    intro hwe
    rw [hstart] at hwe
    cases hwe
  | @snoc b c n wb e ih =>
    intro hwe
    by_cases hb : (g b).explored = true
    · exact ⟨b, c, n, hb, hwe, e, wb, Nat.lt_succ_self n⟩
    · have hb' : (g b).explored = false := by
        cases h : (g b).explored
        · rfl
        · exact absurd h hb
      obtain ⟨v, x, j, h1, h2, h3, h4, h5⟩ := ih hb'
      exact ⟨v, x, j, h1, h2, h3, h4, Nat.lt_succ_of_lt h5⟩

/-- If the explored set contains the start and is closed under
connectivity edges, it contains everything reachable. -/
theorem walk_explored {G g : Grid} {start : Pos} (hstart : (g start).explored = true)
    (hcl : ∀ v, (g v).explored = true → ∀ x, Edge G v x → (g x).explored = true) :
    ∀ {p : Pos} {n : Nat}, WalkLen G start p n → (g p).explored = true := by
  intro p n hw
  induction hw with
  | refl => exact hstart
  | @snoc b c _ wb e ih => exact hcl b ih c e

theorem no_edges_walk {g : Grid} (hcn : ∀ p, (g p).connected_neighbors = [])
    {a b : Pos} {n : Nat} (w : WalkLen g a b n) : b = a := by
  induction w with
  | refl => rfl
  | @snoc x y _ _ e _ =>
    rw [Edge, hcn x] at e
    cases e

theorem unexploredCount_le (rows cols : Nat) (g : Grid) :
    unexploredCount rows cols g ≤ rows * cols := by
  unfold unexploredCount
  calc ((positions rows cols).map (fun p => if (g p).explored then 0 else 1)).sum
      ≤ ((positions rows cols).map (fun _ => 1)).sum := by
        apply List.sum_le_sum
        intro p _
        split <;> omega
    _ = rows * cols := by
        rw [List.map_const', List.sum_replicate, smul_eq_mul, mul_one, positions_length]

/-- Invariant of the solver's inner neighbor-expansion loop while
expanding the dequeued front node `u` (of distance `du`), with `rem` the
still-unprocessed suffix of `u`'s connectivity list, `g` the current
heap and `q` the current queue (the front already removed). -/
structure EInv (G : Grid) (start goal u : Pos) (du : Nat) (rem : List Pos)
    (g : Grid) (q : List Pos) : Prop where
  conn_eq : ∀ p, (g p).connected_neighbors = (G p).connected_neighbors
  start_exp : (g start).explored = true
  start_par : (g start).parent = none
  exp_reach : ∀ p, (g p).explored = true → Reach G start p
  unexp_par : ∀ p, (g p).explored = false → (g p).parent = none
  par_spec : ∀ p, (g p).explored = true → p ≠ start →
    ∃ v d, (g p).parent = some v ∧ (g v).explored = true ∧ Edge G v p ∧
      IsDist G start v d ∧ IsDist G start p (d + 1)
  goal_unexp : goal ≠ start → (g goal).explored = false
  queue_exp : ∀ p, p ∈ q → (g p).explored = true
  queue_pair : q.Pairwise (fun p r => ∀ dp dr, IsDist G start p dp → IsDist G start r dr →
    dp ≤ dr ∧ dr ≤ dp + 1)
  queue_bound : ∀ p, p ∈ q → ∀ dp, IsDist G start p dp → du ≤ dp ∧ dp ≤ du + 1
  closed_off : ∀ p, (g p).explored = true → p ∉ q → p ≠ u → ∀ x, Edge G p x →
    (g x).explored = true
  u_exp : (g u).explored = true
  u_closed : ∀ x, Edge G u x → x ∉ rem → (g x).explored = true
  rem_edge : ∀ x, x ∈ rem → Edge G u x

/-- The central BFS fact: a neighbor discovered while expanding a front
node of distance `du` has distance exactly `du + 1`. -/
theorem bfs_mark_dist {G : Grid} {start goal u w : Pos} {du : Nat} {g : Grid}
    {q rem : List Pos} (hud : IsDist G start u du)
    (inv : EInv G start goal u du rem g q)
    (hedge : Edge G u w) (hw : (g w).explored = false) :
    IsDist G start w (du + 1) := by
  have hwalk : WalkLen G start w (du + 1) := hud.1.snoc hedge
  refine ⟨hwalk, ?_⟩
  intro m hm
  by_contra hcon
  push_neg at hcon
  have hmle : m ≤ du := by omega
  obtain ⟨v, x, j, hv, hx, hvx, hwj, hjm⟩ := first_unexplored inv.start_exp hm hw
  obtain ⟨dv, hdv⟩ := reach_isDist ⟨j, hwj⟩
  have hdvj : dv ≤ j := hdv.2 j hwj
  by_cases hvq : v ∈ q
  · have := (inv.queue_bound v hvq dv hdv).1
    omega
  · by_cases hvu : v = u
    · subst hvu
      have := isDist_unique hdv hud
      omega
    · have := inv.closed_off v hv hvq hvu x hvx
      rw [this] at hx
      cases hx

/-- What one full inner-loop expansion guarantees: the base solver
invariants hold of the result, exploration only grows, `found` is
reported exactly on discovery of a goal distinct from the start, the
expansion invariant is fully restored when the goal was not found, and
the loop measure does not increase. -/
structure ExpandOut (rows cols : Nat) (G : Grid) (start goal : Pos)
    (g0 : Grid) (q0 : List Pos) (u : Pos) (du : Nat) (r : Grid × List Pos × Bool) : Prop where
  conn_eq : ∀ p, (r.1 p).connected_neighbors = (G p).connected_neighbors
  start_exp : (r.1 start).explored = true
  start_par : (r.1 start).parent = none
  exp_reach : ∀ p, (r.1 p).explored = true → Reach G start p
  unexp_par : ∀ p, (r.1 p).explored = false → (r.1 p).parent = none
  par_spec : ∀ p, (r.1 p).explored = true → p ≠ start →
    ∃ v d, (r.1 p).parent = some v ∧ (r.1 v).explored = true ∧ Edge G v p ∧
      IsDist G start v d ∧ IsDist G start p (d + 1)
  mono : ∀ p, (g0 p).explored = true → (r.1 p).explored = true
  found_goal : r.2.2 = true → (r.1 goal).explored = true ∧ goal ≠ start
  not_found : r.2.2 = false → EInv G start goal u du [] r.1 r.2.1
  measure_le : r.2.1.length + 2 * unexploredCount rows cols r.1 ≤
    q0.length + 2 * unexploredCount rows cols g0

theorem bfs_expand_spec {rows cols : Nat} {G : Grid} {start goal u : Pos} {du : Nat}
    (hin : ∀ p x, Edge G p x → InBounds rows cols x)
    (hud : IsDist G start u du) :
    ∀ (rem : List Pos) (g : Grid) (q : List Pos), EInv G start goal u du rem g q →
      ExpandOut rows cols G start goal g q u du (bfs_expand goal u g q rem) := by
  intro rem
  induction rem with
  | nil =>
    intro g q inv
    refine ⟨inv.conn_eq, inv.start_exp, inv.start_par, inv.exp_reach, inv.unexp_par,
      inv.par_spec, fun p h => h, ?_, ?_, Nat.le_refl _⟩
    · intro h
      cases h
    · intro _
      exact ⟨inv.conn_eq, inv.start_exp, inv.start_par, inv.exp_reach, inv.unexp_par,
        inv.par_spec, inv.goal_unexp, inv.queue_exp, inv.queue_pair, inv.queue_bound,
        inv.closed_off, inv.u_exp, fun x hx _ => inv.u_closed x hx (List.not_mem_nil x),
        fun x hx => absurd hx (List.not_mem_nil x)⟩
  | cons nb rest ih =>
    intro g q inv
    simp only [bfs_expand]
    by_cases hexp : (g nb).explored = true
    · rw [if_pos hexp]
      refine ih g q ⟨inv.conn_eq, inv.start_exp, inv.start_par, inv.exp_reach,
        inv.unexp_par, inv.par_spec, inv.goal_unexp, inv.queue_exp, inv.queue_pair,
        inv.queue_bound, inv.closed_off, inv.u_exp, ?_, ?_⟩
      · intro x hx hxr
        by_cases hxn : x = nb
        · rw [hxn]
          exact hexp
        · refine inv.u_closed x hx ?_
          intro hc
          rcases List.mem_cons.mp hc with he | ht
          · exact hxn he
          · exact hxr ht
      · intro x hx
        exact inv.rem_edge x (List.mem_cons_of_mem _ hx)
    · rw [if_neg hexp]
      have hexp' : (g nb).explored = false := by
        cases h : (g nb).explored
        · rfl
        · exact absurd h hexp
      have hedge_unb : Edge G u nb := inv.rem_edge nb (List.mem_cons_self _ _)
      have hdist : IsDist G start nb (du + 1) := bfs_mark_dist hud inv hedge_unb hexp'
      have hnb_start : nb ≠ start := by
        intro he
        rw [he, inv.start_exp] at hexp'
        cases hexp'
      have hnb_u : nb ≠ u := by
        intro he
        rw [he, inv.u_exp] at hexp'
        cases hexp'
      have hnb_inb : InBounds rows cols nb := hin u nb hedge_unb
      have hgnb : (g.modify nb (markExplored u)) nb = markExplored u (g nb) :=
        Grid.modify_same _ _ _
      have hgo : ∀ p, p ≠ nb → (g.modify nb (markExplored u)) p = g p :=
        fun p hp => Grid.modify_other _ _ _ _ hp
      have hexp2 : ((g.modify nb (markExplored u)) nb).explored = true := by
        rw [hgnb]
        rfl
      have hpar2 : ((g.modify nb (markExplored u)) nb).parent = some u := by
        rw [hgnb]
        rfl
      have hmono2 : ∀ p, (g p).explored = true →
          ((g.modify nb (markExplored u)) p).explored = true := by
        intro p hp
        by_cases hpn : p = nb
        · rw [hpn]
          exact hexp2
        · rw [hgo p hpn]
          exact hp
      have hconn2 : ∀ p, ((g.modify nb (markExplored u)) p).connected_neighbors =
          (G p).connected_neighbors := by
        intro p
        rw [modify_field_eq (fun n => n.connected_neighbors) (f := markExplored u)
          (fun n => rfl) p]
        exact inv.conn_eq p
      have hstart2 : ((g.modify nb (markExplored u)) start).explored = true := by
        rw [hgo start (fun he => hnb_start he.symm)]
        exact inv.start_exp
      have hstartp2 : ((g.modify nb (markExplored u)) start).parent = none := by
        rw [hgo start (fun he => hnb_start he.symm)]
        exact inv.start_par
      have hreach2 : ∀ p, ((g.modify nb (markExplored u)) p).explored = true →
          Reach G start p := by
        intro p hp
        by_cases hpn : p = nb
        · rw [hpn]
          exact ⟨du + 1, hdist.1⟩
        · rw [hgo p hpn] at hp
          exact inv.exp_reach p hp
      have hunexp2 : ∀ p, ((g.modify nb (markExplored u)) p).explored = false →
          ((g.modify nb (markExplored u)) p).parent = none := by
        intro p hp
        by_cases hpn : p = nb
        · rw [hpn, hexp2] at hp
          cases hp
        · rw [hgo p hpn] at hp ⊢
          exact inv.unexp_par p hp
      have hpar_spec2 : ∀ p, ((g.modify nb (markExplored u)) p).explored = true →
          p ≠ start →
          ∃ v d, ((g.modify nb (markExplored u)) p).parent = some v ∧
            ((g.modify nb (markExplored u)) v).explored = true ∧ Edge G v p ∧
            IsDist G start v d ∧ IsDist G start p (d + 1) := by
        intro p hp hps
        by_cases hpn : p = nb
        · subst hpn
          refine ⟨u, du, hpar2, ?_, hedge_unb, hud, hdist⟩
          rw [hgo u (fun he => hnb_u he.symm)]
          exact inv.u_exp
        · rw [hgo p hpn] at hp ⊢
          obtain ⟨v, d, h1, h2, h3, h4, h5⟩ := inv.par_spec p hp hps
          exact ⟨v, d, h1, hmono2 v h2, h3, h4, h5⟩
      have hmeas2 : unexploredCount rows cols (g.modify nb (markExplored u)) + 1 =
          unexploredCount rows cols g :=
        unexploredCount_mark hnb_inb hexp' rfl
      by_cases hgoal : nb.row = goal.row ∧ nb.col = goal.col
      · rw [if_pos hgoal]
        have hng : nb = goal := Pos.ext_rc hgoal.1 hgoal.2
        refine ⟨hconn2, hstart2, hstartp2, hreach2, hunexp2, hpar_spec2, hmono2, ?_, ?_, ?_⟩
        · intro _
          exact ⟨by rw [← hng]; exact hexp2, by rw [← hng]; exact hnb_start⟩
        · intro h
          cases h
        · show (q ++ [nb]).length + 2 * unexploredCount rows cols (g.modify nb (markExplored u)) ≤
            q.length + 2 * unexploredCount rows cols g
          rw [List.length_append, List.length_singleton]
          omega
      · rw [if_neg hgoal]
        have hng : nb ≠ goal := by
          intro he
          exact hgoal ⟨by rw [he], by rw [he]⟩
        have hinv2 : EInv G start goal u du rest (g.modify nb (markExplored u)) (q ++ [nb]) := by
          refine ⟨hconn2, hstart2, hstartp2, hreach2, hunexp2, hpar_spec2, ?_, ?_, ?_, ?_,
            ?_, ?_, ?_, ?_⟩
          · intro hgs
            rw [hgo goal (fun he => hng he.symm)]
            exact inv.goal_unexp hgs
          · intro p hp
            rcases List.mem_append.mp hp with h | h
            · exact hmono2 p (inv.queue_exp p h)
            · rw [List.mem_singleton] at h
              rw [h]
              exact hexp2
          · rw [List.pairwise_append]
            refine ⟨inv.queue_pair, List.pairwise_singleton _ _, ?_⟩
            intro x hx y hy
            rw [List.mem_singleton] at hy
            subst hy
            intro dx dy hdx hdy
            have he := isDist_unique hdy hdist
            have hb := inv.queue_bound x hx dx hdx
            omega
          · intro p hp dp hdp
            rcases List.mem_append.mp hp with h | h
            · exact inv.queue_bound p h dp hdp
            · rw [List.mem_singleton] at h
              subst h
              have := isDist_unique hdp hdist
              omega
          · intro p hp hpq hpu x hx
            have hpn : p ≠ nb := by
              intro he
              exact hpq (by rw [he]; exact List.mem_append_right _ (List.mem_singleton_self _))
            rw [hgo p hpn] at hp
            have hpq' : p ∉ q := fun h => hpq (List.mem_append_left _ h)
            exact hmono2 x (inv.closed_off p hp hpq' hpu x hx)
          · rw [hgo u (fun he => hnb_u he.symm)]
            exact inv.u_exp
          · intro x hx hxr
            by_cases hxn : x = nb
            · rw [hxn]
              exact hexp2
            · rw [hgo x hxn]
              refine inv.u_closed x hx ?_
              intro hc
              rcases List.mem_cons.mp hc with he | ht
              · exact hxn he
              · exact hxr ht
          · intro x hx
            exact inv.rem_edge x (List.mem_cons_of_mem _ hx)
        have hout := ih (g.modify nb (markExplored u)) (q ++ [nb]) hinv2
        refine ⟨hout.conn_eq, hout.start_exp, hout.start_par, hout.exp_reach,
          hout.unexp_par, hout.par_spec, ?_, hout.found_goal, hout.not_found, ?_⟩
        · intro p hp
          exact hout.mono p (hmono2 p hp)
        · have := hout.measure_le
          rw [List.length_append, List.length_singleton] at this
          omega

/-- The base invariant of `solve_with_bfs`'s outer loop: connectivity
untouched, the start explored and parentless, explored cells reachable,
parent pointers only on explored cells and always decreasing the true
distance by exactly one, and `found` tracking discovery of a goal
distinct from the start. -/
structure WInv (G : Grid) (start goal : Pos) (s : SolveState) : Prop where
  conn_eq : ∀ p, (s.grid p).connected_neighbors = (G p).connected_neighbors
  start_exp : (s.grid start).explored = true
  start_par : (s.grid start).parent = none
  exp_reach : ∀ p, (s.grid p).explored = true → Reach G start p
  unexp_par : ∀ p, (s.grid p).explored = false → (s.grid p).parent = none
  par_spec : ∀ p, (s.grid p).explored = true → p ≠ start →
    ∃ v d, (s.grid p).parent = some v ∧ (s.grid v).explored = true ∧ Edge G v p ∧
      IsDist G start v d ∧ IsDist G start p (d + 1)
  goal_found : goal ≠ start → (s.grid goal).explored = true → s.found = true
  found_goal : s.found = true → (s.grid goal).explored = true
  found_ne : s.found = true → goal ≠ start

/-- The queue part of the solver invariant, meaningful while `found` is
still false: queued cells are explored, queue distances are sorted and
span at most two consecutive BFS levels, and explored cells off the
queue have fully explored neighborhoods. -/
structure QInv (G : Grid) (start : Pos) (s : SolveState) : Prop where
  queue_exp : ∀ p, p ∈ s.queue → (s.grid p).explored = true
  queue_pair : s.queue.Pairwise (fun p r => ∀ dp dr, IsDist G start p dp →
    IsDist G start r dr → dp ≤ dr ∧ dr ≤ dp + 1)
  closed : ∀ p, (s.grid p).explored = true → p ∉ s.queue → ∀ x, Edge G p x →
    (s.grid x).explored = true

theorem solveStep_spec {rows cols : Nat} {G : Grid} {start goal : Pos}
    (hin : ∀ p x, Edge G p x → InBounds rows cols x)
    {s : SolveState} (hW : WInv G start goal s) (hQ : QInv G start s)
    (hf : s.found = false) (hq : s.queue ≠ []) :
    WInv G start goal (solveStep goal s) ∧
    ((solveStep goal s).found = false → QInv G start (solveStep goal s)) ∧
    (solveStep goal s).queue.length + 2 * unexploredCount rows cols (solveStep goal s).grid <
      s.queue.length + 2 * unexploredCount rows cols s.grid := by
  obtain ⟨g, q, fnd⟩ := s
  cases q with
  | nil => exact absurd rfl hq
  | cons u rest =>
  have hstep : solveStep goal ⟨g, u :: rest, fnd⟩ =
      { grid := (bfs_expand goal u (g.modify u solveRecolor) rest
          (((g.modify u solveRecolor) u).connected_neighbors)).1,
        queue := (bfs_expand goal u (g.modify u solveRecolor) rest
          (((g.modify u solveRecolor) u).connected_neighbors)).2.1,
        found := (bfs_expand goal u (g.modify u solveRecolor) rest
          (((g.modify u solveRecolor) u).connected_neighbors)).2.2 } := rfl
  have hfnd : fnd = false := hf
  have hg1e : ∀ p, ((g.modify u solveRecolor) p).explored = (g p).explored :=
    fun p => modify_field_eq (fun n => n.explored) (f := solveRecolor) (fun n => rfl) p
  have hg1p : ∀ p, ((g.modify u solveRecolor) p).parent = (g p).parent :=
    fun p => modify_field_eq (fun n => n.parent) (f := solveRecolor) (fun n => rfl) p
  have hg1c : ∀ p, ((g.modify u solveRecolor) p).connected_neighbors =
      (G p).connected_neighbors := by
    intro p
    rw [modify_field_eq (fun n => n.connected_neighbors) (f := solveRecolor) (fun n => rfl) p]
    exact hW.conn_eq p
  have hu_exp : (g u).explored = true := hQ.queue_exp u (List.mem_cons_self _ _)
  obtain ⟨du, hud⟩ := reach_isDist (hW.exp_reach u hu_exp)
  have hqp : (u :: rest).Pairwise (fun p r => ∀ dp dr, IsDist G start p dp →
      IsDist G start r dr → dp ≤ dr ∧ dr ≤ dp + 1) := hQ.queue_pair
  have hpc := List.pairwise_cons.mp hqp
  have heinv : EInv G start goal u du
      (((g.modify u solveRecolor) u).connected_neighbors)
      (g.modify u solveRecolor) rest := by
    refine ⟨hg1c, ?_, ?_, ?_, ?_, ?_, ?_, ?_, ?_, ?_, ?_, ?_, ?_, ?_⟩
    · rw [hg1e]
      exact hW.start_exp
    · rw [hg1p]
      exact hW.start_par
    · intro p hp
      rw [hg1e] at hp
      exact hW.exp_reach p hp
    · intro p hp
      rw [hg1e] at hp
      rw [hg1p]
      exact hW.unexp_par p hp
    · intro p hp hps
      rw [hg1e] at hp
      obtain ⟨v, d, h1, h2, h3, h4, h5⟩ := hW.par_spec p hp hps
      exact ⟨v, d, by rw [hg1p]; exact h1, by rw [hg1e]; exact h2, h3, h4, h5⟩
    · intro hgs
      rw [hg1e]
      cases hge : (g goal).explored
      · rfl
      · have : fnd = true := hW.goal_found hgs hge
        rw [hfnd] at this
        cases this
    · intro p hp
      rw [hg1e]
      exact hQ.queue_exp p (List.mem_cons_of_mem _ hp)
    · exact hpc.2
    · intro p hp dp hdp
      exact hpc.1 p hp du dp hud hdp
    · intro p hp hpq hpu x hx
      rw [hg1e] at hp
      rw [hg1e]
      refine hQ.closed p hp ?_ x hx
      intro hc
      rcases List.mem_cons.mp hc with he | ht
      · exact hpu he
      · exact hpq ht
    · rw [hg1e]
      exact hu_exp
    · intro x hx hxr
      rw [hg1c u] at hxr
      exact absurd hx hxr
    · intro x hx
      rw [hg1c u] at hx
      exact hx
  have hout := bfs_expand_spec hin hud _ _ _ heinv
  rw [hstep]
  dsimp only
  refine ⟨⟨hout.conn_eq, hout.start_exp, hout.start_par, hout.exp_reach, hout.unexp_par,
    hout.par_spec, ?_, ?_, ?_⟩, ?_, ?_⟩
  · intro hgs hge
    cases hfo : (bfs_expand goal u (g.modify u solveRecolor) rest
        (((g.modify u solveRecolor) u).connected_neighbors)).2.2
    · have hend := hout.not_found hfo
      rw [hend.goal_unexp hgs] at hge
      cases hge
    · rfl
  · intro h
    exact (hout.found_goal h).1
  · intro h
    exact (hout.found_goal h).2
  · intro h
    have hend := hout.not_found h
    refine ⟨hend.queue_exp, hend.queue_pair, ?_⟩
    intro p hp hpq x hx
    by_cases hpu : p = u
    · subst hpu
      exact hend.u_closed x hx (List.not_mem_nil x)
    · exact hend.closed_off p hp hpq hpu x hx
  · have hm := hout.measure_le
    have hce : unexploredCount rows cols (g.modify u solveRecolor) =
        unexploredCount rows cols g := unexploredCount_congr hg1e
    rw [hce] at hm
    simp only [List.length_cons]
    omega

theorem solveLoop_spec {rows cols : Nat} {G : Grid} {start goal : Pos}
    (hin : ∀ p x, Edge G p x → InBounds rows cols x) :
    ∀ (fuel : Nat) (s : SolveState), WInv G start goal s →
      (s.found = false → QInv G start s) →
      s.queue.length + 2 * unexploredCount rows cols s.grid ≤ fuel →
      WInv G start goal (solveLoop goal fuel s) ∧
      ((solveLoop goal fuel s).found = false →
        QInv G start (solveLoop goal fuel s) ∧ (solveLoop goal fuel s).queue = []) := by
  intro fuel
  induction fuel with
  | zero =>
    intro s hW hQ hm
    have hq0 : s.queue = [] := by
      have : s.queue.length = 0 := by omega
      exact List.length_eq_zero.mp this
    unfold solveLoop
    exact ⟨hW, fun hf => ⟨hQ hf, hq0⟩⟩
  | succ fuel ih =>
    intro s hW hQ hm
    unfold solveLoop
    by_cases hc : s.queue ≠ [] ∧ s.found = false
    · rw [if_pos hc]
      obtain ⟨h1, h2, h3⟩ := solveStep_spec hin hW (hQ hc.2) hc.2 hc.1
      exact ih _ h1 h2 (by omega)
    · rw [if_neg hc]
      push_neg at hc
      refine ⟨hW, fun hf => ⟨hQ hf, ?_⟩⟩
      by_contra hqn
      exact absurd hf (hc hqn)

theorem generateStep_solveFields (rand : Nat → Nat) (s : GenState) (p : Pos) :
    solveFields ((generateStep rand s).grid p) = solveFields (s.grid p) := by
  have h1 : ∀ q, solveFields ((remove_visited_neighbors s.grid s.current) q) =
      solveFields (s.grid q) := by
    intro q
    unfold remove_visited_neighbors
    exact modify_field_eq solveFields
      (f := fun n => { n with neighbors := n.neighbors.filter (fun r => !(s.grid r).visited) })
      (fun n => rfl) q
  unfold generateStep genStepGo
  split
  · dsimp only
    rw [modify_field_eq solveFields (f := backtrackRecolor) (fun n => rfl) p]
    exact h1 p
  · dsimp only
    rw [modify_field_eq solveFields (f := markVisited) (fun n => rfl) p,
      add_edge_field (F := solveFields) (fun n l => rfl) _ _ _ p,
      break_border_field (F := solveFields) (fun n x => rfl) (fun n x => rfl)
        (fun n x => rfl) (fun n x => rfl) _ _ _ _ p]
    exact h1 p

theorem generateLoop_solveFields (rand : Nat → Nat) (total : Nat) :
    ∀ (fuel : Nat) (s : GenState) (p : Pos),
      solveFields ((generateLoop rand total fuel s).grid p) = solveFields (s.grid p) := by
  intro fuel
  induction fuel with
  | zero => intro s p; rfl
  | succ fuel ih =>
    intro s p
    unfold generateLoop
    split
    · rw [ih]
      exact generateStep_solveFields rand s p
    · rfl

/-- The generator never touches the transient solve state: a freshly
generated maze is clean. -/
theorem generate_clean (rand : Nat → Nat) (rows cols : Nat) :
    Clean (generate rand rows cols).grid := by
  intro p
  have h : solveFields ((generate rand rows cols).grid p) =
      solveFields ((genInit rand rows cols).grid p) :=
    generateLoop_solveFields rand (rows * cols) (2 * (rows * cols)) _ p
  have h2 : solveFields ((genInit rand rows cols).grid p) = (false, none) := by
    show solveFields (((initGrid rows cols).modify (Pos.mk (rand 0 % rows) (rand 1 % cols))
      markVisited) p) = (false, none)
    rw [modify_field_eq solveFields (f := markVisited) (fun n => rfl) p]
    rfl
  have h3 := h.trans h2
  exact ⟨congrArg Prod.fst h3, congrArg Prod.snd h3⟩

/-- Every connectivity edge of a generated maze ends in bounds. -/
theorem generate_edges_inb (rand : Nat → Nat) (rows cols : Nat) (h1 : 1 ≤ rows * cols) :
    ∀ p x, Edge (generate rand rows cols).grid p x → InBounds rows cols x := by
  obtain ⟨inv, _⟩ := generate_ginv rand rows cols h1
  intro p x he
  have hx : Edge (generate rand rows cols).grid x p := (inv.edge_sym p x).mp he
  cases hv : ((generate rand rows cols).grid x).visited
  · rw [Edge, inv.unvisited_conn x hv] at hx
    cases hx
  · exact inv.visited_inb x hv

/-- When the starting cell has no parent the backtrace loop exits at
once, changing nothing and highlighting nothing. -/
theorem backtrack_none {g : Grid} {cur : Pos} (h : (g cur).parent = none) :
    ∀ (fuel : Nat) (acc : List Pos), backtrackLoop fuel g cur acc = (g, acc) := by
  intro fuel acc
  cases fuel with
  | zero => rfl
  | succ fuel =>
    unfold backtrackLoop
    rw [h]

theorem backtrackLoop_solveFields :
    ∀ (fuel : Nat) (g : Grid) (cur : Pos) (acc : List Pos) (p : Pos),
      solveFields ((backtrackLoop fuel g cur acc).1 p) = solveFields (g p) := by
  intro fuel
  induction fuel with
  | zero => intro g cur acc p; rfl
  | succ fuel ih =>
    intro g cur acc p
    unfold backtrackLoop
    cases h1 : (g cur).parent with
    | none => rfl
    | some q =>
      dsimp only
      cases h2 : (g q).parent with
      | none => rfl
      | some x =>
        dsimp only
        rw [ih]
        exact modify_field_eq solveFields (f := orangeRecolor) (fun n => rfl) p

/-- The cells the backtrace loop would highlight, read off a fixed
reference heap: follow `parent` links while the grandparent exists. -/
def btPath (g : Grid) : Nat → Pos → List Pos
  | 0, _ => []
  | fuel + 1, cur =>
    match (g cur).parent with
    | none => []
    | some p =>
      match (g p).parent with
      | none => []
      | some _ => p :: btPath g fuel p

theorem backtrackLoop_acc {g0 : Grid} :
    ∀ (fuel : Nat) (g : Grid) (cur : Pos) (acc : List Pos),
      (∀ p, (g p).parent = (g0 p).parent) →
      (backtrackLoop fuel g cur acc).2 = acc ++ btPath g0 fuel cur := by
  intro fuel
  induction fuel with
  | zero =>
    intro g cur acc hpar
    simp [backtrackLoop, btPath]
  | succ fuel ih =>
    intro g cur acc hpar
    unfold backtrackLoop btPath
    rw [hpar cur]
    cases h1 : (g0 cur).parent with
    | none => simp
    | some q =>
      dsimp only
      rw [hpar q]
      cases h2 : (g0 q).parent with
      | none => simp
      | some x =>
        dsimp only
        rw [ih (g.modify q orangeRecolor) q (acc ++ [q]) ?hp]
        · rw [List.append_assoc]
          rfl
        · intro p
          rw [modify_field_eq (fun n => n.parent) (f := orangeRecolor) (fun n => rfl) p]
          exact hpar p

/-- With sound parent pointers, the cells highlighted by the backtrace
are exactly the interior of the parent chain, traversed goal-to-start. -/
theorem btPath_parentChain {G g0 : Grid} {start : Pos}
    (hsp : (g0 start).parent = none)
    (hps : ∀ p, (g0 p).explored = true → p ≠ start →
      ∃ v d, (g0 p).parent = some v ∧ (g0 v).explored = true ∧ Edge G v p ∧
        IsDist G start v d ∧ IsDist G start p (d + 1)) :
    ∀ (d : Nat) (cur : Pos), (g0 cur).explored = true → IsDist G start cur (d + 1) →
      ∀ f, d + 1 ≤ f →
      start :: ((btPath g0 f cur).reverse ++ [cur]) = parentChain g0 f cur := by
  have hpcs : ∀ f, parentChain g0 f start = [start] := by
    intro f
    cases f with
    | zero => rfl
    | succ f =>
      unfold parentChain
      rw [hsp]
  intro d
  induction d with
  | zero =>
    intro cur hce hcd f hf
    have hcs : cur ≠ start := by
      intro he
      subst he
      have := isDist_unique hcd (isDist_self cur)
      omega
    obtain ⟨v, d0, hpar, hve, hedge, hvd, hcd'⟩ := hps cur hce hcs
    have hd0 : d0 = 0 := by
      have := isDist_unique hcd' hcd
      omega
    subst hd0
    have hvs : v = start := walkLen_zero hvd.1
    subst hvs
    obtain ⟨f', rfl⟩ : ∃ f', f = f' + 1 := ⟨f - 1, by omega⟩
    have hbt : btPath g0 (f' + 1) cur = [] := by
      unfold btPath
      rw [hpar]
      dsimp only
      rw [hsp]
    have hpcc : parentChain g0 (f' + 1) cur = parentChain g0 f' v ++ [cur] := by
      have h0 : parentChain g0 (f' + 1) cur =
          match (g0 cur).parent with
          | none => [cur]
          | some q => parentChain g0 f' q ++ [cur] := rfl
      rw [h0, hpar]
    rw [hbt, hpcc, hpcs f']
    rfl
  | succ d ih =>
    intro cur hce hcd f hf
    have hcs : cur ≠ start := by
      intro he
      subst he
      have := isDist_unique hcd (isDist_self cur)
      omega
    obtain ⟨v, d0, hpar, hve, hedge, hvd, hcd'⟩ := hps cur hce hcs
    have hd0 : d0 = d + 1 := by
      have := isDist_unique hcd' hcd
      omega
    subst hd0
    have hvs : v ≠ start := by
      intro he
      subst he
      have := isDist_unique hvd (isDist_self v)
      omega
    obtain ⟨w, d1, hpar2, _, _, _, _⟩ := hps v hve hvs
    obtain ⟨f', rfl⟩ : ∃ f', f = f' + 1 := ⟨f - 1, by omega⟩
    have hbt : btPath g0 (f' + 1) cur = v :: btPath g0 f' v := by
      have h0 : btPath g0 (f' + 1) cur =
          match (g0 cur).parent with
          | none => []
          | some p =>
            match (g0 p).parent with
            | none => []
            | some _ => p :: btPath g0 f' p := rfl
      rw [h0, hpar]
      dsimp only
      rw [hpar2]
    have hpcc : parentChain g0 (f' + 1) cur = parentChain g0 f' v ++ [cur] := by
      have h0 : parentChain g0 (f' + 1) cur =
          match (g0 cur).parent with
          | none => [cur]
          | some q => parentChain g0 f' q ++ [cur] := rfl
      rw [h0, hpar]
    rw [hbt, hpcc, ← ih v hve hvd f' (by omega)]
    simp

/-- Structure of the parent chain of an explored cell at distance `d`:
it is a simple walk of `d` edges from the start to the cell. -/
theorem parentChain_spec {G g : Grid} {start : Pos}
    (hsp : (g start).parent = none)
    (hps : ∀ p, (g p).explored = true → p ≠ start →
      ∃ v d, (g p).parent = some v ∧ (g v).explored = true ∧ Edge G v p ∧
        IsDist G start v d ∧ IsDist G start p (d + 1)) :
    ∀ (d : Nat) (p : Pos), (g p).explored = true → IsDist G start p d →
      ∀ f, d ≤ f →
      (parentChain g f p).length = d + 1 ∧
      (parentChain g f p).head? = some start ∧
      (parentChain g f p).getLast? = some p ∧
      (parentChain g f p).Chain' (Edge G) ∧
      (∀ x, x ∈ parentChain g f p → ∃ dx, IsDist G start x dx ∧ dx ≤ d) ∧
      (parentChain g f p).Pairwise (fun a b => ∀ da db, IsDist G start a da →
        IsDist G start b db → da < db) := by
  intro d
  induction d with
  | zero =>
    intro p hpe hpd f _
    have hp : p = start := walkLen_zero hpd.1
    subst hp
    have hpc : parentChain g f p = [p] := by
      cases f with
      | zero => rfl
      | succ f =>
        unfold parentChain
        rw [hsp]
    rw [hpc]
    refine ⟨rfl, rfl, rfl, List.chain'_singleton p, ?_, List.pairwise_singleton _ p⟩
    intro x hx
    rw [List.mem_singleton] at hx
    subst hx
    exact ⟨0, isDist_self _, Nat.le_refl 0⟩
  | succ d ih =>
    intro p hpe hpd f hf
    have hps' : p ≠ start := by
      intro he
      subst he
      have := isDist_unique hpd (isDist_self p)
      omega
    obtain ⟨v, d0, hpar, hve, hedge, hvd, hpd'⟩ := hps p hpe hps'
    have hd0 : d = d0 := by
      have := isDist_unique hpd' hpd
      omega
    subst hd0
    obtain ⟨f', rfl⟩ : ∃ f', f = f' + 1 := ⟨f - 1, by omega⟩
    have hrec : parentChain g (f' + 1) p = parentChain g f' v ++ [p] := by
      have h0 : parentChain g (f' + 1) p =
          match (g p).parent with
          | none => [p]
          | some q => parentChain g f' q ++ [p] := rfl
      rw [h0, hpar]
    obtain ⟨ihl, ihh, ihg, ihc, ihm, ihp⟩ := ih v hve hvd f' (by omega)
    rw [hrec]
    obtain ⟨t, hteq⟩ : ∃ t, parentChain g f' v = start :: t := by
      cases hl : parentChain g f' v with
      | nil =>
        rw [hl] at ihh
        cases ihh
      | cons a t =>
        rw [hl] at ihh
        simp only [List.head?_cons, Option.some.injEq] at ihh
        exact ⟨t, by rw [ihh]⟩
    refine ⟨?_, ?_, ?_, ?_, ?_, ?_⟩
    · rw [List.length_append, ihl, List.length_singleton]
    · rw [hteq]
      rfl
    · rw [List.getLast?_concat]
    · rw [List.chain'_append]
      refine ⟨ihc, List.chain'_singleton p, ?_⟩
      intro x hx y hy
      rw [ihg] at hx
      simp only [Option.mem_def, Option.some.injEq] at hx
      simp only [List.head?_cons, Option.mem_def, Option.some.injEq] at hy
      subst hx
      subst hy
      exact hedge
    · intro x hx
      rcases List.mem_append.mp hx with h | h
      · obtain ⟨dx, h1, h2⟩ := ihm x h
        exact ⟨dx, h1, by omega⟩
      · rw [List.mem_singleton] at h
        subst h
        exact ⟨d + 1, hpd, Nat.le_refl _⟩
    · rw [List.pairwise_append]
      refine ⟨ihp, List.pairwise_singleton _ p, ?_⟩
      intro a ha b hb
      rw [List.mem_singleton] at hb
      subst hb
      intro da db hda hdb
      obtain ⟨dx, h1, h2⟩ := ihm a ha
      have h3 : da = dx := isDist_unique hda h1
      have h4 : db = d + 1 := isDist_unique hdb hpd
      omega

/-- A list whose elements have pairwise strictly increasing BFS distances
repeats no cell. -/
theorem pairwise_dist_nodup {G : Grid} {start : Pos} {l : List Pos}
    (hp : l.Pairwise (fun a b => ∀ da db, IsDist G start a da →
      IsDist G start b db → da < db))
    (hm : ∀ x, x ∈ l → ∃ dx, IsDist G start x dx) :
    l.Nodup := by
  refine List.Pairwise.imp_of_mem ?_ hp
  intro a b ha hb h he
  obtain ⟨da, hda⟩ := hm a ha
  have hdb : IsDist G start b da := he ▸ hda
  have := h da da hda hdb
  omega

/-- `solve_with_bfs` on a clean heap establishes the solver invariants
the moment it marks the player's cell explored and enqueues it. -/
theorem solve_init_inv {G : Grid} {start goal : Pos} (hclean : Clean G) :
    WInv G start goal
      { grid := G.modify start (fun n => { n with explored := true }),
        queue := [start], found := false } ∧
    QInv G start
      { grid := G.modify start (fun n => { n with explored := true }),
        queue := [start], found := false } := by
  have hexp : ∀ p, p ≠ start →
      ((G.modify start (fun n => { n with explored := true })) p).explored = false := by
    intro p hp
    rw [Grid.modify_other _ _ _ _ hp]
    exact (hclean p).1
  have hexps : ((G.modify start (fun n => { n with explored := true })) start).explored = true := by
    rw [Grid.modify_same]
  have hpar : ∀ p, ((G.modify start (fun n => { n with explored := true })) p).parent =
      (G p).parent := by
    intro p
    by_cases hp : p = start
    · subst hp
      rw [Grid.modify_same]
    · rw [Grid.modify_other _ _ _ _ hp]
  have hconn : ∀ p,
      ((G.modify start (fun n => { n with explored := true })) p).connected_neighbors =
      (G p).connected_neighbors :=
    fun p => modify_field_eq (fun n => n.connected_neighbors)
      (f := fun n => { n with explored := true }) (fun n => rfl) p
  refine ⟨⟨hconn, hexps, ?_, ?_, ?_, ?_, ?_, ?_, ?_⟩, ?_, ?_, ?_⟩
  · rw [hpar start]
    exact (hclean start).2
  · intro p hp
    by_cases hps : p = start
    · subst hps
      exact ⟨0, WalkLen.refl⟩
    · rw [hexp p hps] at hp
      cases hp
  · intro p _
    rw [hpar p]
    exact (hclean p).2
  · intro p hp hps
    rw [hexp p hps] at hp
    cases hp
  · intro hgs hge
    rw [hexp goal hgs] at hge
    cases hge
  · intro h
    exact Bool.noConfusion h
  · intro h
    exact Bool.noConfusion h
  · intro p hp
    rw [List.mem_singleton] at hp
    subst hp
    exact hexps
  · exact List.pairwise_singleton _ start
  · intro p hp hpq x _
    exfalso
    by_cases hps : p = start
    · subst hps
      exact hpq (List.mem_singleton.mpr rfl)
    · rw [hexp p hps] at hp
      cases hp

/-- Running the BFS loop of `solve_with_bfs` from a clean heap with
sufficient fuel yields the solver invariant, and the queue invariant plus
an empty queue whenever the goal was not found. -/
theorem solve_run_spec {rows cols : Nat} {G : Grid} {start goal : Pos}
    (hclean : Clean G) (hin : ∀ p x, Edge G p x → InBounds rows cols x)
    {fuel : Nat} (hfuel : 2 * (rows * cols) + 1 ≤ fuel) :
    WInv G start goal (solveLoop goal fuel
      { grid := G.modify start (fun n => { n with explored := true }),
        queue := [start], found := false }) ∧
    ((solveLoop goal fuel
      { grid := G.modify start (fun n => { n with explored := true }),
        queue := [start], found := false }).found = false →
      QInv G start (solveLoop goal fuel
        { grid := G.modify start (fun n => { n with explored := true }),
          queue := [start], found := false }) ∧
      (solveLoop goal fuel
        { grid := G.modify start (fun n => { n with explored := true }),
          queue := [start], found := false }).queue = []) := by
  have hsi := @solve_init_inv G start goal hclean
  refine solveLoop_spec hin fuel _ hsi.1 (fun _ => hsi.2) ?_
  have h := unexploredCount_le rows cols (G.modify start (fun n => { n with explored := true }))
  simp only [List.length_singleton]
  omega

/-- C6: when the goal is not reachable from the start in the connectivity
graph, `solve_with_bfs` exhausts its queue without reaching the goal: it
ends with `found` false and an empty queue, and the backtrace highlights
nothing.  This is a normal terminating outcome, not an error. -/
theorem claim_C6_exhausted {rows cols : Nat} {G : Grid} {start goal : Pos}
    (hclean : Clean G) (hin : ∀ p x, Edge G p x → InBounds rows cols x)
    (hnreach : ¬ Reach G start goal) {fuel : Nat}
    (hfuel : 2 * (rows * cols) + 1 ≤ fuel) :
    (solve_with_bfs G start goal fuel).1.found = false ∧
    (solve_with_bfs G start goal fuel).1.queue = [] ∧
    (solve_with_bfs G start goal fuel).2 = [] := by
  obtain ⟨hW, hrest⟩ := @solve_run_spec rows cols G start goal hclean hin fuel hfuel
  have hfound : (solveLoop goal fuel
      { grid := G.modify start (fun n => { n with explored := true }),
        queue := [start], found := false }).found = false := by
    cases hf : (solveLoop goal fuel
      { grid := G.modify start (fun n => { n with explored := true }),
        queue := [start], found := false }).found with
    | false => rfl
    | true => exact absurd (hW.exp_reach goal (hW.found_goal hf)) hnreach
  obtain ⟨hQ, hqe⟩ := hrest hfound
  have hge : ((solveLoop goal fuel
      { grid := G.modify start (fun n => { n with explored := true }),
        queue := [start], found := false }).grid goal).explored = false := by
    cases h : ((solveLoop goal fuel
      { grid := G.modify start (fun n => { n with explored := true }),
        queue := [start], found := false }).grid goal).explored with
    | false => rfl
    | true => exact absurd (hW.exp_reach goal h) hnreach
  have hbt := backtrack_none (hW.unexp_par goal hge) fuel []
  refine ⟨hfound, hqe, ?_⟩
  have h2 : (solve_with_bfs G start goal fuel).2 =
      (backtrackLoop fuel (solveLoop goal fuel
        { grid := G.modify start (fun n => { n with explored := true }),
          queue := [start], found := false }).grid goal []).2 := rfl
  rw [h2, hbt]

/-- C10: invoked with the start cell equal to the goal cell,
`solve_with_bfs` never reports the goal found (the goal test is applied
only to newly discovered neighbors, never to the start itself), explores
exactly the reachable component before exhausting its queue, leaves the
goal's parent empty, and the backtrace highlights nothing. -/
theorem claim_C10_start_eq_goal {rows cols : Nat} {G : Grid} {start : Pos}
    (hclean : Clean G) (hin : ∀ p x, Edge G p x → InBounds rows cols x)
    {fuel : Nat} (hfuel : 2 * (rows * cols) + 1 ≤ fuel) :
    (solve_with_bfs G start start fuel).1.found = false ∧
    (solve_with_bfs G start start fuel).1.queue = [] ∧
    (∀ p, (((solve_with_bfs G start start fuel).1.grid) p).explored = true ↔ Reach G start p) ∧
    ((solve_with_bfs G start start fuel).1.grid start).parent = none ∧
    (solve_with_bfs G start start fuel).2 = [] := by
  obtain ⟨hW, hrest⟩ := @solve_run_spec rows cols G start start hclean hin fuel hfuel
  have hfound : (solveLoop start fuel
      { grid := G.modify start (fun n => { n with explored := true }),
        queue := [start], found := false }).found = false := by
    cases hf : (solveLoop start fuel
      { grid := G.modify start (fun n => { n with explored := true }),
        queue := [start], found := false }).found with
    | false => rfl
    | true => exact absurd (hW.found_ne hf) (fun h => h rfl)
  obtain ⟨hQ, hqe⟩ := hrest hfound
  have hbt := backtrack_none (hW.start_par) fuel ([] : List Pos)
  have hgr : (solve_with_bfs G start start fuel).1.grid =
      (backtrackLoop fuel (solveLoop start fuel
        { grid := G.modify start (fun n => { n with explored := true }),
          queue := [start], found := false }).grid start []).1 := rfl
  have hgr2 : (solve_with_bfs G start start fuel).1.grid =
      (solveLoop start fuel
        { grid := G.modify start (fun n => { n with explored := true }),
          queue := [start], found := false }).grid := by
    rw [hgr, hbt]
  refine ⟨hfound, hqe, ?_, ?_, ?_⟩
  · intro p
    rw [hgr2]
    constructor
    · exact hW.exp_reach p
    · rintro ⟨n, w⟩
      refine walk_explored hW.start_exp ?_ w
      intro v hv x hx
      refine hQ.closed v hv ?_ x hx
      rw [hqe]
      exact List.not_mem_nil v
  · rw [hgr2]
    exact hW.start_par
  · have h2 : (solve_with_bfs G start start fuel).2 =
        (backtrackLoop fuel (solveLoop start fuel
          { grid := G.modify start (fun n => { n with explored := true }),
            queue := [start], found := false }).grid start []).2 := rfl
    rw [h2, hbt]

/-- C2 counterexample: the goal test of `solve_with_bfs` is applied only
to newly discovered neighbors, so a goal equal to the start — trivially
reachable — is never reported found. -/
theorem claim_C2_counterexample :
    Reach (generate (fun _ => 0) 1 2).grid (Pos.mk 0 0) (Pos.mk 0 0) ∧
    (solve_with_bfs (generate (fun _ => 0) 1 2).grid (Pos.mk 0 0) (Pos.mk 0 0) 5).1.found =
      false :=
  ⟨⟨0, WalkLen.refl⟩, by decide⟩

/-- C2 (amended to goals distinct from the start): for every clean
connectivity graph and start/goal pair at true BFS distance `n ≥ 1`,
`solve_with_bfs` reports the goal found, and the parent chain of the goal
is a simple path of exactly `n` edges from the start to the goal whose
consecutive cells are all joined by open connectivity edges. -/
theorem claim_C2_shortest_path {rows cols : Nat} {G : Grid} {start goal : Pos} {n : Nat}
    (hclean : Clean G) (hin : ∀ p x, Edge G p x → InBounds rows cols x)
    (hne : goal ≠ start) (hdist : IsDist G start goal n) {fuel : Nat}
    (hfuel : 2 * (rows * cols) + 1 ≤ fuel) (hnf : n ≤ fuel) :
    (solve_with_bfs G start goal fuel).1.found = true ∧
    (parentChain (solve_with_bfs G start goal fuel).1.grid fuel goal).length = n + 1 ∧
    (parentChain (solve_with_bfs G start goal fuel).1.grid fuel goal).head? = some start ∧
    (parentChain (solve_with_bfs G start goal fuel).1.grid fuel goal).getLast? = some goal ∧
    (parentChain (solve_with_bfs G start goal fuel).1.grid fuel goal).Nodup ∧
    (parentChain (solve_with_bfs G start goal fuel).1.grid fuel goal).Chain' (Edge G) := by
  obtain ⟨hW, hrest⟩ := @solve_run_spec rows cols G start goal hclean hin fuel hfuel
  have hexp : ((solveLoop goal fuel
      { grid := G.modify start (fun n => { n with explored := true }),
        queue := [start], found := false }).grid goal).explored = true := by
    cases hf : (solveLoop goal fuel
      { grid := G.modify start (fun n => { n with explored := true }),
        queue := [start], found := false }).found with
    | true => exact hW.found_goal hf
    | false =>
      obtain ⟨hQ, hqe⟩ := hrest hf
      refine walk_explored hW.start_exp ?_ hdist.1
      intro v hv x hx
      refine hQ.closed v hv ?_ x hx
      rw [hqe]
      exact List.not_mem_nil v
  have hfound := hW.goal_found hne hexp
  have hpar : ∀ p, ((solve_with_bfs G start goal fuel).1.grid p).parent =
      ((solveLoop goal fuel
        { grid := G.modify start (fun n => { n with explored := true }),
          queue := [start], found := false }).grid p).parent := by
    intro p
    exact congrArg Prod.snd (backtrackLoop_solveFields fuel (solveLoop goal fuel
      { grid := G.modify start (fun n => { n with explored := true }),
        queue := [start], found := false }).grid goal [] p)
  have hpc := parentChain_congr hpar fuel goal
  obtain ⟨h1, h2, h3, h4, h5, h6⟩ :=
    parentChain_spec hW.start_par hW.par_spec n goal hexp hdist fuel hnf
  refine ⟨hfound, ?_, ?_, ?_, ?_, ?_⟩
  · rw [hpc]
    exact h1
  · rw [hpc]
    exact h2
  · rw [hpc]
    exact h3
  · rw [hpc]
    exact pairwise_dist_nodup h6 (fun x hx => (h5 x hx).elim (fun dx hdx => ⟨dx, hdx.1⟩))
  · rw [hpc]
    exact h4

/-- C3 counterexample: on a generated 1×2 maze the solver finds the goal
one step away, yet the backtrace highlights no cell at all — in
particular the highlighted path does not start at the start cell, which
refutes the claim that the reconstruction includes both endpoints. -/
theorem claim_C3_counterexample :
    (solve_with_bfs (generate (fun _ => 0) 1 2).grid (Pos.mk 0 0) (Pos.mk 0 1) 5).1.found =
      true ∧
    (solve_with_bfs (generate (fun _ => 0) 1 2).grid (Pos.mk 0 0) (Pos.mk 0 1) 5).2 = [] := by
  constructor
  · decide
  · decide

/-- C3 (amended): the cells highlighted by the backtrace are exactly the
interior of the parent chain — prepending the start and appending the
goal to the reversed highlight list reconstructs the full chain, and
neither endpoint is ever highlighted. -/
theorem claim_C3_backtrace {rows cols : Nat} {G : Grid} {start goal : Pos} {n : Nat}
    (hclean : Clean G) (hin : ∀ p x, Edge G p x → InBounds rows cols x)
    (hne : goal ≠ start) (hdist : IsDist G start goal n) {fuel : Nat}
    (hfuel : 2 * (rows * cols) + 1 ≤ fuel) (hnf : n ≤ fuel) :
    start :: ((solve_with_bfs G start goal fuel).2.reverse ++ [goal]) =
      parentChain (solve_with_bfs G start goal fuel).1.grid fuel goal ∧
    start ∉ (solve_with_bfs G start goal fuel).2 ∧
    goal ∉ (solve_with_bfs G start goal fuel).2 := by
  obtain ⟨hW, hrest⟩ := @solve_run_spec rows cols G start goal hclean hin fuel hfuel
  have hexp : ((solveLoop goal fuel
      { grid := G.modify start (fun n => { n with explored := true }),
        queue := [start], found := false }).grid goal).explored = true := by
    cases hf : (solveLoop goal fuel
      { grid := G.modify start (fun n => { n with explored := true }),
        queue := [start], found := false }).found with
    | true => exact hW.found_goal hf
    | false =>
      obtain ⟨hQ, hqe⟩ := hrest hf
      refine walk_explored hW.start_exp ?_ hdist.1
      intro v hv x hx
      refine hQ.closed v hv ?_ x hx
      rw [hqe]
      exact List.not_mem_nil v
  have hr2 : (solve_with_bfs G start goal fuel).2 =
      btPath (solveLoop goal fuel
        { grid := G.modify start (fun n => { n with explored := true }),
          queue := [start], found := false }).grid fuel goal := by
    have h := backtrackLoop_acc fuel (solveLoop goal fuel
      { grid := G.modify start (fun n => { n with explored := true }),
        queue := [start], found := false }).grid goal [] (fun p => rfl)
    rw [List.nil_append] at h
    exact h
  obtain ⟨m, rfl⟩ : ∃ m, n = m + 1 := by
    cases n with
    | zero => exact absurd (walkLen_zero hdist.1) hne
    | succ m => exact ⟨m, rfl⟩
  have hbtpc := btPath_parentChain hW.start_par hW.par_spec m goal hexp hdist fuel hnf
  have hpar : ∀ p, ((solve_with_bfs G start goal fuel).1.grid p).parent =
      ((solveLoop goal fuel
        { grid := G.modify start (fun n => { n with explored := true }),
          queue := [start], found := false }).grid p).parent := by
    intro p
    exact congrArg Prod.snd (backtrackLoop_solveFields fuel (solveLoop goal fuel
      { grid := G.modify start (fun n => { n with explored := true }),
        queue := [start], found := false }).grid goal [] p)
  have hpc := parentChain_congr hpar fuel goal
  obtain ⟨h1, h2, h3, h4, h5, h6⟩ :=
    parentChain_spec hW.start_par hW.par_spec (m + 1) goal hexp hdist fuel hnf
  have hnd : (parentChain (solveLoop goal fuel
      { grid := G.modify start (fun n => { n with explored := true }),
        queue := [start], found := false }).grid fuel goal).Nodup :=
    pairwise_dist_nodup h6 (fun x hx => (h5 x hx).elim (fun dx hdx => ⟨dx, hdx.1⟩))
  rw [← hbtpc] at hnd
  have hnd2 := List.nodup_cons.mp hnd
  have hstart_nmem : start ∉ (solve_with_bfs G start goal fuel).2 := by
    intro h
    exact hnd2.1 (List.mem_append_left _ (List.mem_reverse.mpr (hr2 ▸ h)))
  have hgoal_nmem : goal ∉ (solve_with_bfs G start goal fuel).2 := by
    intro h
    have hdisj := (List.nodup_append.mp hnd2.2).2.2
    exact hdisj (List.mem_reverse.mpr (hr2 ▸ h)) (List.mem_singleton.mpr rfl)
  refine ⟨?_, hstart_nmem, hgoal_nmem⟩
  rw [hpc, hr2]
  exact hbtpc

theorem claim_C6_exhausted_witness :
    (solve_with_bfs (initGrid 1 2) (Pos.mk 0 0) (Pos.mk 0 1) 5).1.found = false ∧
    (solve_with_bfs (initGrid 1 2) (Pos.mk 0 0) (Pos.mk 0 1) 5).1.queue = [] ∧
    (solve_with_bfs (initGrid 1 2) (Pos.mk 0 0) (Pos.mk 0 1) 5).2 = [] :=
  @claim_C6_exhausted 1 2 (initGrid 1 2) (Pos.mk 0 0) (Pos.mk 0 1)
    (fun p => ⟨rfl, rfl⟩)
    (fun p x he => absurd (show x ∈ ([] : List Pos) from he) (List.not_mem_nil x))
    (fun h => h.elim (fun m w => absurd (no_edges_walk (fun p => rfl) w) (by decide)))
    5 (by decide)

theorem claim_C10_start_eq_goal_witness :
    (solve_with_bfs (initGrid 1 1) (Pos.mk 0 0) (Pos.mk 0 0) 3).1.found = false ∧
    (solve_with_bfs (initGrid 1 1) (Pos.mk 0 0) (Pos.mk 0 0) 3).1.queue = [] ∧
    (∀ p, (((solve_with_bfs (initGrid 1 1) (Pos.mk 0 0) (Pos.mk 0 0) 3).1.grid) p).explored =
      true ↔ Reach (initGrid 1 1) (Pos.mk 0 0) p) ∧
    ((solve_with_bfs (initGrid 1 1) (Pos.mk 0 0) (Pos.mk 0 0) 3).1.grid
      (Pos.mk 0 0)).parent = none ∧
    (solve_with_bfs (initGrid 1 1) (Pos.mk 0 0) (Pos.mk 0 0) 3).2 = [] :=
  @claim_C10_start_eq_goal 1 1 (initGrid 1 1) (Pos.mk 0 0)
    (fun p => ⟨rfl, rfl⟩)
    (fun p x he => absurd (show x ∈ ([] : List Pos) from he) (List.not_mem_nil x))
    3 (by decide)

theorem claim_C2_shortest_path_witness :
    (solve_with_bfs (generate (fun _ => 0) 1 2).grid (Pos.mk 0 0) (Pos.mk 0 1) 5).1.found =
      true ∧
    (parentChain (solve_with_bfs (generate (fun _ => 0) 1 2).grid (Pos.mk 0 0)
      (Pos.mk 0 1) 5).1.grid 5 (Pos.mk 0 1)).length = 1 + 1 ∧
    (parentChain (solve_with_bfs (generate (fun _ => 0) 1 2).grid (Pos.mk 0 0)
      (Pos.mk 0 1) 5).1.grid 5 (Pos.mk 0 1)).head? = some (Pos.mk 0 0) ∧
    (parentChain (solve_with_bfs (generate (fun _ => 0) 1 2).grid (Pos.mk 0 0)
      (Pos.mk 0 1) 5).1.grid 5 (Pos.mk 0 1)).getLast? = some (Pos.mk 0 1) ∧
    (parentChain (solve_with_bfs (generate (fun _ => 0) 1 2).grid (Pos.mk 0 0)
      (Pos.mk 0 1) 5).1.grid 5 (Pos.mk 0 1)).Nodup ∧
    (parentChain (solve_with_bfs (generate (fun _ => 0) 1 2).grid (Pos.mk 0 0)
      (Pos.mk 0 1) 5).1.grid 5 (Pos.mk 0 1)).Chain' (Edge (generate (fun _ => 0) 1 2).grid) :=
  @claim_C2_shortest_path 1 2 (generate (fun _ => 0) 1 2).grid (Pos.mk 0 0) (Pos.mk 0 1) 1
    (generate_clean (fun _ => 0) 1 2)
    (generate_edges_inb (fun _ => 0) 1 2 (by decide))
    (by decide)
    ⟨WalkLen.snoc WalkLen.refl (by decide), fun m hm => by
      cases m with
      | zero => exact absurd (walkLen_zero hm) (by decide)
      | succ m => omega⟩
    5 (by decide) (by decide)

theorem claim_C3_backtrace_witness :
    Pos.mk 0 0 :: ((solve_with_bfs (generate (fun _ => 0) 1 2).grid (Pos.mk 0 0)
      (Pos.mk 0 1) 5).2.reverse ++ [Pos.mk 0 1]) =
      parentChain (solve_with_bfs (generate (fun _ => 0) 1 2).grid (Pos.mk 0 0)
        (Pos.mk 0 1) 5).1.grid 5 (Pos.mk 0 1) ∧
    Pos.mk 0 0 ∉ (solve_with_bfs (generate (fun _ => 0) 1 2).grid (Pos.mk 0 0)
      (Pos.mk 0 1) 5).2 ∧
    Pos.mk 0 1 ∉ (solve_with_bfs (generate (fun _ => 0) 1 2).grid (Pos.mk 0 0)
      (Pos.mk 0 1) 5).2 :=
  @claim_C3_backtrace 1 2 (generate (fun _ => 0) 1 2).grid (Pos.mk 0 0) (Pos.mk 0 1) 1
    (generate_clean (fun _ => 0) 1 2)
    (generate_edges_inb (fun _ => 0) 1 2 (by decide))
    (by decide)
    ⟨WalkLen.snoc WalkLen.refl (by decide), fun m hm => by
      cases m with
      | zero => exact absurd (walkLen_zero hm) (by decide)
      | succ m => omega⟩
    5 (by decide) (by decide)

/-- The state of `Game.run`'s main loop: the maze heap, the player's
cell, the goal cell, and the `maze_solved` / `player_won` flags.
`solveLog` is the observation attached to the model: the heap at the
moment of each `solve_with_bfs` invocation. -/
structure GameState where
  grid : Grid
  player : Pos
  goal : Pos
  maze_solved : Bool
  player_won : Bool
  solveLog : List Grid

/-- One keydown event of the main loop: `r` reloads a fresh maze with
new random endpoints, `q` gives up, an arrow key moves the player. -/
inductive GKey
  | keyR (rand : Nat → Nat) (start goal : Pos)
  | keyQ
  | arrow (k : Key)

/-- The restart / give-up event scan of `Game.run`: `K_r` regenerates
the maze and clears both flags; `K_q`, only when the maze is neither
solved nor won, runs `solve_with_bfs` from the player's cell and sets
`maze_solved`. -/
def gameEvent (rows cols : Nat) (s : GameState) (e : GKey) : GameState :=
  match e with
  | GKey.keyR rand start goal =>
    { grid := (generate rand rows cols).grid, player := start, goal := goal,
      maze_solved := false, player_won := false, solveLog := s.solveLog }
  | GKey.keyQ =>
    if s.maze_solved = false ∧ s.player_won = false then
      { grid := (solve_with_bfs s.grid s.player s.goal (2 * (rows * cols) + 1)).1.grid,
        player := s.player, goal := s.goal, maze_solved := true,
        player_won := s.player_won, solveLog := s.solveLog ++ [s.grid] }
    else s
  | GKey.arrow _ => s

/-- One event of `Player.update`'s scan: arrow keys move the player,
other keys are ignored. -/
def gameMove (rows cols : Nat) (g : Grid) (p : Pos) (e : GKey) : Pos :=
  match e with
  | GKey.arrow k => player_update g rows cols p k
  | _ => p

/-- One iteration of `Game.run`'s main loop: scan the frame's events for
restart / give-up, move the player when the game is still live, then
apply the win check. -/
def gameFrame (rows cols : Nat) (s : GameState) (events : List GKey) : GameState :=
  let s1 := events.foldl (gameEvent rows cols) s
  let s2 := if s1.maze_solved = false ∧ s1.player_won = false then
      { s1 with player := events.foldl (gameMove rows cols s1.grid) s1.player }
    else s1
  if s2.player.row = s2.goal.row ∧ s2.player.col = s2.goal.col then
    { s2 with player_won := true }
  else s2

/-- `Game.run`'s main loop over a sequence of frames. -/
def gameRun (rows cols : Nat) : GameState → List (List GKey) → GameState
  | s, [] => s
  | s, f :: fs => gameRun rows cols (gameFrame rows cols s f) fs

/-- The state right after `_load_new_maze` plus `maze.generate`. -/
def gameInit (rand : Nat → Nat) (rows cols : Nat) (start goal : Pos) : GameState :=
  { grid := (generate rand rows cols).grid, player := start, goal := goal,
    maze_solved := false, player_won := false, solveLog := [] }

theorem game_event_inv (rows cols : Nat) (s : GameState) (e : GKey)
    (h1 : ∀ g, g ∈ s.solveLog → Clean g) (h2 : s.maze_solved = false → Clean s.grid) :
    (∀ g, g ∈ (gameEvent rows cols s e).solveLog → Clean g) ∧
    ((gameEvent rows cols s e).maze_solved = false → Clean (gameEvent rows cols s e).grid) := by
  cases e with
  | keyR rand st gl => exact ⟨h1, fun _ => generate_clean rand rows cols⟩
  | keyQ =>
    by_cases hc : s.maze_solved = false ∧ s.player_won = false
    · have he : gameEvent rows cols s GKey.keyQ =
          { grid := (solve_with_bfs s.grid s.player s.goal (2 * (rows * cols) + 1)).1.grid,
            player := s.player, goal := s.goal, maze_solved := true,
            player_won := s.player_won, solveLog := s.solveLog ++ [s.grid] } := by
        unfold gameEvent
        rw [if_pos hc]
      rw [he]
      refine ⟨?_, ?_⟩
      · intro g hg
        rcases List.mem_append.mp hg with h | h
        · exact h1 g h
        · rw [List.mem_singleton] at h
          subst h
          exact h2 hc.1
      · intro hms
        exact Bool.noConfusion hms
    · have he : gameEvent rows cols s GKey.keyQ = s := by
        unfold gameEvent
        rw [if_neg hc]
      rw [he]
      exact ⟨h1, h2⟩
  | arrow k => exact ⟨h1, h2⟩

theorem game_foldl_inv (rows cols : Nat) :
    ∀ (events : List GKey) (s : GameState),
      (∀ g, g ∈ s.solveLog → Clean g) → (s.maze_solved = false → Clean s.grid) →
      (∀ g, g ∈ (events.foldl (gameEvent rows cols) s).solveLog → Clean g) ∧
      ((events.foldl (gameEvent rows cols) s).maze_solved = false →
        Clean (events.foldl (gameEvent rows cols) s).grid) := by
  intro events
  induction events with
  | nil => intro s h1 h2; exact ⟨h1, h2⟩
  | cons e rest ih =>
    intro s h1 h2
    obtain ⟨k1, k2⟩ := game_event_inv rows cols s e h1 h2
    exact ih _ k1 k2

theorem game_frame_fields (rows cols : Nat) (s : GameState) (events : List GKey) :
    (gameFrame rows cols s events).solveLog =
      (events.foldl (gameEvent rows cols) s).solveLog ∧
    (gameFrame rows cols s events).maze_solved =
      (events.foldl (gameEvent rows cols) s).maze_solved ∧
    (gameFrame rows cols s events).grid =
      (events.foldl (gameEvent rows cols) s).grid := by
  unfold gameFrame
  dsimp only
  split <;> split <;> exact ⟨rfl, rfl, rfl⟩

theorem game_run_inv (rows cols : Nat) :
    ∀ (frames : List (List GKey)) (s : GameState),
      (∀ g, g ∈ s.solveLog → Clean g) → (s.maze_solved = false → Clean s.grid) →
      (∀ g, g ∈ (gameRun rows cols s frames).solveLog → Clean g) ∧
      ((gameRun rows cols s frames).maze_solved = false →
        Clean (gameRun rows cols s frames).grid) := by
  intro frames
  induction frames with
  | nil => intro s h1 h2; exact ⟨h1, h2⟩
  | cons f fs ih =>
    intro s h1 h2
    obtain ⟨k1, k2, k3⟩ := game_frame_fields rows cols s f
    obtain ⟨m1, m2⟩ := game_foldl_inv rows cols f s h1 h2
    refine ih (gameFrame rows cols s f) ?_ ?_
    · intro g hg
      rw [k1] at hg
      exact m1 g hg
    · intro hms
      rw [k3]
      exact m2 (k2.symm.trans hms)

/-- C4: every invocation of `solve_with_bfs` over a whole game run sees
a clean heap — explored false and parent empty on every cell.  The game
flow guarantees it: a maze is solved at most once (`maze_solved` guards
`K_q`), a fresh maze is generated clean, and no other action writes the
transient solve state. -/
theorem claim_C4_clean_solve (rand : Nat → Nat) (rows cols : Nat) (start goal : Pos)
    (frames : List (List GKey)) :
    ∀ g, g ∈ (gameRun rows cols (gameInit rand rows cols start goal) frames).solveLog →
      Clean g :=
  (game_run_inv rows cols frames (gameInit rand rows cols start goal)
    (fun g hg => absurd hg (List.not_mem_nil g))
    (fun _ => generate_clean rand rows cols)).1

theorem claim_C4_clean_solve_witness :
    (generate (fun _ => 0) 1 2).grid ∈
      (gameRun 1 2 (gameInit (fun _ => 0) 1 2 (Pos.mk 0 0) (Pos.mk 0 1))
        [[GKey.keyQ]]).solveLog ∧
    Clean (generate (fun _ => 0) 1 2).grid := by
  have hmem : (generate (fun _ => 0) 1 2).grid ∈
      (gameRun 1 2 (gameInit (fun _ => 0) 1 2 (Pos.mk 0 0) (Pos.mk 0 1))
        [[GKey.keyQ]]).solveLog := by
    have hlog : (gameRun 1 2 (gameInit (fun _ => 0) 1 2 (Pos.mk 0 0) (Pos.mk 0 1))
        [[GKey.keyQ]]).solveLog = [(generate (fun _ => 0) 1 2).grid] := rfl
    rw [hlog]
    exact List.mem_singleton.mpr rfl
  exact ⟨hmem, claim_C4_clean_solve (fun _ => 0) 1 2 (Pos.mk 0 0) (Pos.mk 0 1) [[GKey.keyQ]]
    (generate (fun _ => 0) 1 2).grid hmem⟩
